import Mathlib

/-!
Verification development for the `scidata_xwalker` pipeline
(`scidata.py`, `scidata_xwalker.py`).

The Python sources are shallowly embedded: trees of nested dicts / lists /
scalars become inductive types, dict mutation becomes pure assoc-list
update (Python dicts keep the insertion position of a key and overwrite its
value on re-assignment), and the two unbounded `while` loops of the source
(`SciData.__iterate_function`'s uid-dedup loop and
`flatten_json_iterative_solution`'s fixpoint loop) are given explicit fuel;
sufficiency of the chosen fuel is proved where a claim needs it.
Scalar leaf values are modelled as strings and integers (the code never
inspects float values, it only passes them through).
-/

namespace SciDataXW

/-- Assoc-list lookup: Python `d.get(k)` / `d[k]` (the `none` case is a
`KeyError` at the call sites that use `d[k]`). -/
def alookup {α : Type} : List (String × α) → String → Option α
  | [], _ => none
  | (k', v) :: rest, k => if k' = k then some v else alookup rest k

/-- Python `d[k] = v` on an insertion-ordered dict: overwrite the value at
the first occurrence of `k`, keeping its position, else append `(k, v)`. -/
def dictInsert {α : Type} : List (String × α) → String → α → List (String × α)
  | [], k, v => [(k, v)]
  | (k', v') :: rest, k, v =>
      if k' = k then (k, v) :: rest else (k', v') :: dictInsert rest k v

/-- Python `d.pop(k, None)`: drop the entry at key `k` if present. -/
def eraseKey {α : Type} : List (String × α) → String → List (String × α)
  | [], _ => []
  | (k', v') :: rest, k => if k' = k then rest else (k', v') :: eraseKey rest k

/-- One step of Python `str.replace(old, new)` over explicit characters,
with fuel (the callers pass the length of the subject, which suffices
because each step consumes at least one character). -/
def replaceAux (old new : List Char) : Nat → List Char → List Char
  | 0, s => s
  | _ + 1, [] => []
  | fuel + 1, c :: rest =>
      if old ≠ [] ∧ old.isPrefixOf (c :: rest) then
        new ++ replaceAux old new fuel ((c :: rest).drop old.length)
      else
        c :: replaceAux old new fuel rest

/-- Python `s.replace(old, new)` (left-to-right, non-overlapping). -/
def pyReplace (s old new : String) : String :=
  ⟨replaceAux old.data new.data s.data.length s.data⟩

/-- The character of a decimal digit, as Python `str(int)` produces it. -/
def digitChar (d : Nat) : Char := Char.ofNat (48 + d)

/-- Fuel-driven rendering of a natural number in decimal (the translation
of Python `str(...)` on a nonnegative int); fuel `n + 1` always suffices. -/
def natToStrAux : Nat → Nat → List Char → List Char
  | 0, _, acc => acc
  | fuel + 1, n, acc =>
      if n < 10 then digitChar n :: acc
      else natToStrAux fuel (n / 10) (digitChar (n % 10) :: acc)

/-- Python `str(n)` for a natural number. -/
def natToStr (n : Nat) : String := ⟨natToStrAux (n + 1) n []⟩

/-- Python `int(s)` on a (known-valid) decimal digit string. -/
def decToNat (l : List Char) : Nat :=
  l.foldl (fun a c => 10 * a + (c.toNat - 48)) 0

theorem digitChar_toNat : ∀ d < 10, (digitChar d).toNat = 48 + d := by decide

theorem digitChar_isDigit : ∀ d < 10, (digitChar d).isDigit = true := by decide

theorem digitChar_ne_slash : ∀ d < 10, digitChar d ≠ '/' := by decide

theorem natToStrAux_append (old : List Char) :
    ∀ fuel n acc, natToStrAux fuel n (acc ++ old) = natToStrAux fuel n acc ++ old := by
  intro fuel
  induction fuel with
  | zero => intro n acc; simp [natToStrAux]
  | succ fuel ih =>
      intro n acc
      by_cases h : n < 10
      · simp [natToStrAux, h]
      · have := ih (n / 10) (digitChar (n % 10) :: acc)
        simpa [natToStrAux, h] using this

theorem natToStrAux_nil_append (old : List Char) (fuel n : Nat) :
    natToStrAux fuel n old = natToStrAux fuel n [] ++ old := by
  simpa using natToStrAux_append old fuel n []

theorem decToNat_append_singleton (l : List Char) (c : Char) :
    decToNat (l ++ [c]) = 10 * decToNat l + (c.toNat - 48) := by
  simp [decToNat]

theorem natToStrAux_spec :
    ∀ fuel n, n < 10 ^ (fuel + 1) →
      decToNat (natToStrAux (fuel + 1) n []) = n ∧
      (∀ c ∈ natToStrAux (fuel + 1) n [], c.isDigit = true) ∧
      natToStrAux (fuel + 1) n [] ≠ [] := by
  intro fuel
  induction fuel with
  | zero =>
      intro n hn
      have h : n < 10 := by simpa using hn
      refine ⟨?_, ?_, by simp [natToStrAux, h]⟩
      · simp [natToStrAux, h, decToNat, digitChar_toNat n h]
      · intro c hc
        simp [natToStrAux, h] at hc
        simpa [hc] using digitChar_isDigit n h
  | succ fuel ih =>
      intro n hn
      by_cases h : n < 10
      · refine ⟨?_, ?_, by simp [natToStrAux, h]⟩
        · simp [natToStrAux, h, decToNat, digitChar_toNat n h]
        · intro c hc
          simp [natToStrAux, h] at hc
          simpa [hc] using digitChar_isDigit n h
      · have hdiv : n / 10 < 10 ^ (fuel + 1) := by
          rw [Nat.div_lt_iff_lt_mul (by norm_num)]
          calc n < 10 ^ (fuel + 1 + 1) := hn
            _ = 10 ^ (fuel + 1) * 10 := by ring
        obtain ⟨h1, h2, h3⟩ := ih (n / 10) hdiv
        have hrw : natToStrAux (fuel + 1 + 1) n [] =
            natToStrAux (fuel + 1) (n / 10) [] ++ [digitChar (n % 10)] := by
          simp only [natToStrAux, h, if_false]
          exact natToStrAux_nil_append [digitChar (n % 10)] (fuel + 1) (n / 10)
        refine ⟨?_, ?_, by simp [hrw]⟩
        · rw [hrw, decToNat_append_singleton, h1,
            digitChar_toNat (n % 10) (Nat.mod_lt _ (by norm_num))]
          omega
        · intro c hc
          rw [hrw] at hc
          rcases List.mem_append.mp hc with hc | hc
          · exact h2 c hc
          · simp at hc
            simpa [hc] using digitChar_isDigit (n % 10) (Nat.mod_lt _ (by norm_num))

theorem n_lt_ten_pow (n : Nat) : n < 10 ^ (n + 1) := by
  calc n < n + 1 := Nat.lt_succ_self n
    _ ≤ 10 ^ (n + 1) := Nat.le_of_lt (Nat.lt_pow_self (by norm_num) _)

theorem decToNat_natToStr (n : Nat) : decToNat (natToStr n).data = n :=
  (natToStrAux_spec n n (n_lt_ten_pow n)).1

theorem natToStr_isDigit (n : Nat) : ∀ c ∈ (natToStr n).data, c.isDigit = true :=
  (natToStrAux_spec n n (n_lt_ten_pow n)).2.1

theorem natToStr_ne_nil (n : Nat) : (natToStr n).data ≠ [] :=
  (natToStrAux_spec n n (n_lt_ten_pow n)).2.2

theorem natToStr_injective : Function.Injective natToStr := by
  intro a b h
  have : decToNat (natToStr a).data = decToNat (natToStr b).data := by rw [h]
  rwa [decToNat_natToStr, decToNat_natToStr] at this

theorem natToStr_no_slash (n : Nat) : ∀ c ∈ (natToStr n).data, c ≠ '/' := by
  intro c hc hslash
  have := natToStr_isDigit n c hc
  subst hslash
  simp [Char.isDigit] at this

theorem takeWhile_append_stop {α : Type} (p : α → Bool) (l₁ : List α) (c : α) (l₂ : List α)
    (h₁ : ∀ a ∈ l₁, p a = true) (hc : p c = false) :
    (l₁ ++ c :: l₂).takeWhile p = l₁ := by
  induction l₁ with
  | nil => simp [List.takeWhile, hc]
  | cons a rest ih =>
      have ha : p a = true := h₁ a (by simp)
      simp only [List.cons_append, List.takeWhile_cons, ha, if_true]
      rw [ih (fun a h => h₁ a (by simp [h]))]

theorem drop_length_append {α : Type} (l₁ l₂ : List α) :
    (l₁ ++ l₂).drop l₁.length = l₂ := by
  induction l₁ with
  | nil => simp
  | cons a rest ih => simp [ih]

/- ------------------------------------------------------------------ -/
/- `scidata.py`: `SciData.__iterate_function`, `enumuid`, `aspects`.   -/
/- ------------------------------------------------------------------ -/

/-- A JSON-like value as handled by `SciData.__iterate_function`: a scalar
(the function only ever inspects strings; other scalars pass through a
dict unexamined and are modelled as their string rendering), a dict in
insertion order, or a list. -/
inductive JVal : Type where
  | str (s : String)
  | obj (fields : List (String × JVal))
  | arr (elems : List JVal)

/-- `enumuid` from `SciData.__iterate_function`:
`uidsplit = uid.rsplit('/', 2)` splits at the last two `'/'` characters;
the result is `uidsplit[0] + '/' + str(int(uidsplit[1]) + 1) + '/'`
(the text after the final `'/'`, here `seg2`, is discarded — for the uids
the source builds it is always empty).  Python `int` would raise on a
non-digit middle segment; every uid the source constructs ends in
`'/' + digits + '/'`, and on those this translation agrees with the
source. -/
def enumuid (uid : String) : String :=
  let r := uid.data.reverse
  let seg2 := r.takeWhile (fun c => c ≠ '/')
  let r1 := (r.drop seg2.length).drop 1
  let seg1 := r1.takeWhile (fun c => c ≠ '/')
  let seg0 := ((r1.drop seg1.length).drop 1).reverse
  ⟨seg0⟩ ++ "/" ++ natToStr (decToNat seg1.reverse + 1) ++ "/"

/-- The canonical shape of every uid `__iterate_function` constructs:
`<base> + '/' + str(n) + '/'`. -/
def canUid (b : String) (n : Nat) : String := b ++ "/" ++ natToStr n ++ "/"

theorem slash_data : ("/" : String).data = ['/'] := rfl

theorem canUid_data (b : String) (n : Nat) :
    (canUid b n).data = b.data ++ '/' :: ((natToStr n).data ++ ['/']) := by
  simp [canUid, String.data_append, slash_data]

theorem enumuid_canonical (b : String) (n : Nat) :
    enumuid (canUid b n) = canUid b (n + 1) := by
  have hnotslash : ∀ c ∈ (natToStr n).data.reverse, (fun c => c ≠ '/' : Char → Bool) c = true := by
    intro c hc
    simp only [decide_eq_true_eq]
    exact natToStr_no_slash n c (List.mem_reverse.mp hc)
  have hslash : (fun c => c ≠ '/' : Char → Bool) '/' = false := by simp
  have hrev : (canUid b n).data.reverse =
      '/' :: ((natToStr n).data.reverse ++ '/' :: b.data.reverse) := by
    simp [canUid_data, List.reverse_append]
  show (⟨_⟩ : String) ++ "/" ++ natToStr _ ++ "/" = canUid b (n + 1)
  rw [hrev]
  have h2 : (('/' :: ((natToStr n).data.reverse ++ '/' :: b.data.reverse)).takeWhile
      (fun c => c ≠ '/')) = [] := by
    simp [List.takeWhile_cons, hslash]
  rw [h2]
  simp only [List.length_nil, List.drop_zero, List.drop_succ_cons, List.drop_nil]
  rw [takeWhile_append_stop _ _ _ _ hnotslash hslash]
  rw [List.length_reverse, ← List.length_reverse (natToStr n).data,
    drop_length_append]
  simp only [List.drop_succ_cons, List.drop_zero, List.reverse_reverse]
  rw [decToNat_natToStr]
  show (⟨b.data⟩ : String) ++ "/" ++ natToStr (n + 1) ++ "/" = canUid b (n + 1)
  rfl

theorem canUid_inj_right {b : String} {n m : Nat} (h : canUid b n = canUid b m) : n = m := by
  have hd : (canUid b n).data = (canUid b m).data := by rw [h]
  rw [canUid_data, canUid_data] at hd
  have h1 := List.append_cancel_left hd
  have h2 : (natToStr n).data ++ ['/'] = (natToStr m).data ++ ['/'] := by
    injection h1
  have h3 := List.append_cancel_right h2
  exact natToStr_injective (String.ext h3)

/-- The collision-resolution loop `while uid in uidindex: uid = enumuid(uid)`,
with fuel; `freshUid` supplies fuel `len(uidindex) + 1`, which is proved
sufficient (`freshUid_not_mem`), so the zero-fuel branch is dead code. -/
def freshUidAux : Nat → String → List String → String
  | 0, uid, _ => uid
  | fuel + 1, uid, idx => if uid ∈ idx then freshUidAux fuel (enumuid uid) idx else uid

def freshUid (uid : String) (idx : List String) : String :=
  freshUidAux (idx.length + 1) uid idx

theorem freshUidAux_not_mem :
    ∀ fuel b n idx, (∃ k, k < fuel ∧ canUid b (n + k) ∉ idx) →
      freshUidAux fuel (canUid b n) idx ∉ idx := by
  intro fuel
  induction fuel with
  | zero => rintro b n idx ⟨k, hk, -⟩; omega
  | succ fuel ih =>
      rintro b n idx ⟨k, hk, hfree⟩
      by_cases hmem : canUid b n ∈ idx
      · have hk0 : k ≠ 0 := by rintro rfl; simp at hfree; exact hfree hmem
        have : freshUidAux (fuel + 1) (canUid b n) idx =
            freshUidAux fuel (canUid b (n + 1)) idx := by
          simp [freshUidAux, hmem, enumuid_canonical]
        rw [this]
        exact ih b (n + 1) idx ⟨k - 1, by omega, by
          have : n + 1 + (k - 1) = n + k := by omega
          rwa [this]⟩
      · simp only [freshUidAux, if_neg hmem]; exact hmem

theorem exists_fresh_index (b : String) (n : Nat) (idx : List String) :
    ∃ k, k < idx.length + 1 ∧ canUid b (n + k) ∉ idx := by
  by_contra hall
  push_neg at hall
  set cands : List String := (List.range (idx.length + 1)).map (fun k => canUid b (n + k))
    with hcands
  have hnodup : cands.Nodup := by
    refine List.Nodup.map ?_ (List.nodup_range _)
    intro i j hij
    have := canUid_inj_right hij
    omega
  have hsub : cands.toFinset ⊆ idx.toFinset := by
    intro a ha
    rw [List.mem_toFinset] at ha
    rw [List.mem_toFinset]
    obtain ⟨k, hk, rfl⟩ := List.mem_map.mp ha
    exact hall k (List.mem_range.mp hk)
  have h1 : cands.toFinset.card = idx.length + 1 := by
    rw [List.toFinset_card_of_nodup hnodup, hcands, List.length_map, List.length_range]
  have h2 : idx.toFinset.card ≤ idx.length := idx.toFinset_card_le
  have := Finset.card_le_card hsub
  omega

theorem freshUid_not_mem (b : String) (n : Nat) (idx : List String) :
    freshUid (canUid b n) idx ∉ idx :=
  freshUidAux_not_mem (idx.length + 1) b n idx (exists_fresh_index b n idx)

/-- `prev_uid` as a string: `if prev_uid: uid = prev_uid + ... else: uid = ...`
(an absent parent uid contributes the empty prefix; a falsy `''` parent —
which never occurs — would contribute the same). -/
def prevStr : Option String → String
  | some p => p
  | none => ""

/-- The category chosen by `__iterate_function`: `it['@id']` when present
(the source would raise a `TypeError` further down if that value were not a
string; such values are modelled by the empty category, which the
uniqueness theorem does not depend on), else `'compound'` when a
`descriptors` or `identifiers` key exists, else `'undefined'`. -/
def categoryOf (flds : List (String × JVal)) : String :=
  match alookup flds "@id" with
  | some (JVal.str s) => s
  | some _ => ""
  | none =>
      if (alookup flds "descriptors").isSome ∨ (alookup flds "identifiers").isSome then
        "compound"
      else "undefined"

mutual
/-- `SciData.__iterate_function(it, uidindex, uid=False)`, with the
mutated `uidindex` threaded explicitly.  A string returns unchanged
(`__addid` only touches the instance's `ids` registry, which no claim
concerns, and is not modelled).  A list reaching this function directly
makes the source raise `AttributeError` (`list.items()`); the theorems
restrict inputs so that this branch is unreachable, and it returns the
value unchanged. -/
def iterateFn : JVal → List String → Option String → JVal × List String
  | JVal.str s, idx, _ => (JVal.str s, idx)
  | JVal.arr l, idx, _ => (JVal.arr l, idx)
  | JVal.obj flds, idx, prev =>
      let category := categoryOf flds
      let uid0 := prevStr prev ++ category ++ "/1/"
      let uid := freshUid uid0 idx
      let (temp, idx2) :=
        iterateFields flds uid
          [("@id", JVal.str uid), ("@type", JVal.str ("sdo:" ++ category))]
          (idx ++ [uid])
      (JVal.obj temp, idx2)
  termination_by it _ _ => sizeOf it
  decreasing_by all_goals simp_wf

/-- The `for key, value in it.items(): if key != '@id': ...` loop of
`__iterate_function`, building `temp` by dict assignment. -/
def iterateFields :
    List (String × JVal) → String → List (String × JVal) → List String →
      List (String × JVal) × List String
  | [], _, temp, idx => (temp, idx)
  | (key, value) :: rest, uid, temp, idx =>
      if key = "@id" then iterateFields rest uid temp idx
      else
        match value with
        | JVal.arr l =>
            let (l2, idx2) := iterateElems l uid idx
            iterateFields rest uid (dictInsert temp key (JVal.arr l2)) idx2
        | JVal.obj o =>
            let (v2, idx2) := iterateFn (JVal.obj o) idx (some uid)
            iterateFields rest uid (dictInsert temp key v2) idx2
        | JVal.str s => iterateFields rest uid (dictInsert temp key (JVal.str s)) idx
  termination_by flds _ _ _ => sizeOf flds
  decreasing_by all_goals (simp_wf <;> omega)

/-- The per-element loop over a list-valued field: every element is
processed with the same parent uid (`listuid` in the source). -/
def iterateElems : List JVal → String → List String → List JVal × List String
  | [], _, idx => ([], idx)
  | e :: rest, uid, idx =>
      let (e2, idx2) := iterateFn e idx (some uid)
      let (rest2, idx3) := iterateElems rest uid idx2
      (e2 :: rest2, idx3)
  termination_by l _ _ => sizeOf l
  decreasing_by all_goals (simp_wf <;> omega)
end

mutual
/-- All `'@id'` values occurring anywhere in a tree (the identifiers of the
assembled nodes). -/
def collectIds : JVal → List String
  | JVal.str _ => []
  | JVal.obj flds => collectIdsFields flds
  | JVal.arr l => collectIdsList l
  termination_by v => sizeOf v
  decreasing_by all_goals simp_wf

def collectIdsFields : List (String × JVal) → List String
  | [] => []
  | (k, v) :: rest =>
      (if k = "@id" then
        match v with
        | JVal.str s => [s]
        | JVal.obj flds => collectIdsFields flds
        | JVal.arr l => collectIdsList l
      else collectIds v) ++ collectIdsFields rest
  termination_by flds => sizeOf flds
  decreasing_by all_goals (simp_wf <;> omega)

def collectIdsList : List JVal → List String
  | [] => []
  | e :: rest => collectIds e ++ collectIdsList rest
  termination_by l => sizeOf l
  decreasing_by all_goals (simp_wf <;> omega)
end

/-- The loop body shared by `SciData.aspects`, `SciData.facets` and
`SciData.datapoint`: `uidindex = []`, then each list entry is passed
through `__iterate_function` (threading `uidindex`) and appended. -/
def assembleAux : List JVal → List String → List JVal × List String
  | [], idx => ([], idx)
  | e :: rest, idx =>
      let (item, idx2) := iterateFn e idx none
      let (items, idx3) := assembleAux rest idx2
      (item :: items, idx3)

/-- `SciData.aspects(aspects)`: appends the freshly assembled items to the
current `meta[...]['aspects']` list and returns it (`facets` and
`datapoint` are the same loop over their own sections). -/
def aspects (curr : List JVal) (l : List JVal) : List JVal :=
  curr ++ (assembleAux l []).1

mutual
/-- Trees on which `__iterate_function` terminates normally: a list nested
directly inside a list (or a scalar list element) makes the source raise,
so list elements must be strings or dicts. -/
inductive GoodVal : JVal → Prop where
  | str (s : String) : GoodVal (JVal.str s)
  | obj (flds : List (String × JVal)) :
      (∀ kv ∈ flds, GoodVal kv.2) → GoodVal (JVal.obj flds)
  | arr (l : List JVal) : (∀ e ∈ l, GoodElem e) → GoodVal (JVal.arr l)

/-- A value that may be handed to `__iterate_function` itself (a top-level
grouped record or a list element): a string or a well-formed dict. -/
inductive GoodElem : JVal → Prop where
  | str (s : String) : GoodElem (JVal.str s)
  | obj (flds : List (String × JVal)) :
      (∀ kv ∈ flds, GoodVal kv.2) → GoodElem (JVal.obj flds)
end

theorem natToStr_one : natToStr 1 = "1" := by decide

theorem append_slash_one (b : String) : b ++ "/1/" = canUid b 1 := by
  apply String.ext
  rw [canUid_data]
  rw [String.data_append]
  simp [natToStr_one]

theorem freshUid_slash_one_not_mem (b : String) (idx : List String) :
    freshUid (b ++ "/1/") idx ∉ idx := by
  rw [append_slash_one]
  exact freshUid_not_mem b 1 idx

/- Propositional equations for the mutually recursive (well-founded)
definitions above, in the pair-projection form the proofs use. -/

theorem iterateFn_str (s : String) (idx : List String) (prev : Option String) :
    iterateFn (JVal.str s) idx prev = (JVal.str s, idx) := by
  rw [iterateFn.eq_def]

theorem iterateFn_obj (flds : List (String × JVal)) (idx : List String) (prev : Option String) :
    iterateFn (JVal.obj flds) idx prev =
      (JVal.obj (iterateFields flds (freshUid (prevStr prev ++ categoryOf flds ++ "/1/") idx)
          [("@id", JVal.str (freshUid (prevStr prev ++ categoryOf flds ++ "/1/") idx)),
           ("@type", JVal.str ("sdo:" ++ categoryOf flds))]
          (idx ++ [freshUid (prevStr prev ++ categoryOf flds ++ "/1/") idx])).1,
       (iterateFields flds (freshUid (prevStr prev ++ categoryOf flds ++ "/1/") idx)
          [("@id", JVal.str (freshUid (prevStr prev ++ categoryOf flds ++ "/1/") idx)),
           ("@type", JVal.str ("sdo:" ++ categoryOf flds))]
          (idx ++ [freshUid (prevStr prev ++ categoryOf flds ++ "/1/") idx])).2) := by
  rw [iterateFn.eq_def]

theorem iterateFields_nil (uid : String) (temp : List (String × JVal)) (idx : List String) :
    iterateFields [] uid temp idx = (temp, idx) := by
  rw [iterateFields.eq_def]

theorem iterateFields_atid (value : JVal) (rest : List (String × JVal)) (uid : String)
    (temp : List (String × JVal)) (idx : List String) :
    iterateFields (("@id", value) :: rest) uid temp idx = iterateFields rest uid temp idx := by
  rw [iterateFields.eq_def]
  simp

theorem iterateFields_str (key : String) (s : String) (rest : List (String × JVal))
    (uid : String) (temp : List (String × JVal)) (idx : List String) (hkey : key ≠ "@id") :
    iterateFields ((key, JVal.str s) :: rest) uid temp idx =
      iterateFields rest uid (dictInsert temp key (JVal.str s)) idx := by
  rw [iterateFields.eq_def]
  simp [hkey]

theorem iterateFields_obj (key : String) (o : List (String × JVal)) (rest : List (String × JVal))
    (uid : String) (temp : List (String × JVal)) (idx : List String) (hkey : key ≠ "@id") :
    iterateFields ((key, JVal.obj o) :: rest) uid temp idx =
      iterateFields rest uid (dictInsert temp key (iterateFn (JVal.obj o) idx (some uid)).1)
        (iterateFn (JVal.obj o) idx (some uid)).2 := by
  rw [iterateFields.eq_def]
  rcases h : iterateFn (JVal.obj o) idx (some uid) with ⟨a, b⟩
  simp [hkey, h]

theorem iterateFields_arr (key : String) (l : List JVal) (rest : List (String × JVal))
    (uid : String) (temp : List (String × JVal)) (idx : List String) (hkey : key ≠ "@id") :
    iterateFields ((key, JVal.arr l) :: rest) uid temp idx =
      iterateFields rest uid (dictInsert temp key (JVal.arr (iterateElems l uid idx).1))
        (iterateElems l uid idx).2 := by
  rw [iterateFields.eq_def]
  rcases h : iterateElems l uid idx with ⟨a, b⟩
  simp [hkey, h]

theorem iterateElems_nil (uid : String) (idx : List String) :
    iterateElems [] uid idx = ([], idx) := by
  rw [iterateElems.eq_def]

theorem iterateElems_cons (e : JVal) (rest : List JVal) (uid : String) (idx : List String) :
    iterateElems (e :: rest) uid idx =
      ((iterateFn e idx (some uid)).1 ::
        (iterateElems rest uid (iterateFn e idx (some uid)).2).1,
       (iterateElems rest uid (iterateFn e idx (some uid)).2).2) := by
  rw [iterateElems.eq_def]

theorem collectIds_str (s : String) : collectIds (JVal.str s) = [] := by
  rw [collectIds.eq_def]

theorem collectIds_obj (flds : List (String × JVal)) :
    collectIds (JVal.obj flds) = collectIdsFields flds := by
  rw [collectIds.eq_def]

theorem collectIds_arr (l : List JVal) : collectIds (JVal.arr l) = collectIdsList l := by
  rw [collectIds.eq_def]

theorem collectIdsFields_nil : collectIdsFields [] = [] := by
  rw [collectIdsFields.eq_def]

theorem collectIdsFields_cons_ne (k : String) (v : JVal) (rest : List (String × JVal))
    (hk : k ≠ "@id") :
    collectIdsFields ((k, v) :: rest) = collectIds v ++ collectIdsFields rest := by
  rw [collectIdsFields.eq_def]
  cases v <;> simp [hk, collectIds_str, collectIds_obj, collectIds_arr]

/-- The contribution of an `'@id'`-keyed entry to `collectIdsFields`. -/
def idHeadIds : JVal → List String
  | JVal.str s => [s]
  | JVal.obj flds => collectIdsFields flds
  | JVal.arr l => collectIdsList l

theorem collectIdsFields_cons_id (v : JVal) (rest : List (String × JVal)) :
    collectIdsFields (("@id", v) :: rest) = idHeadIds v ++ collectIdsFields rest := by
  rw [collectIdsFields.eq_def]
  cases v <;> simp [idHeadIds]

theorem collectIdsList_nil : collectIdsList [] = [] := by
  rw [collectIdsList.eq_def]

theorem collectIdsList_cons (e : JVal) (rest : List JVal) :
    collectIdsList (e :: rest) = collectIds e ++ collectIdsList rest := by
  rw [collectIdsList.eq_def]

theorem collectIdsFields_seed (uid cat : String) :
    collectIdsFields [("@id", JVal.str uid), ("@type", JVal.str cat)] = [uid] := by
  rw [collectIdsFields_cons_id, collectIdsFields_cons_ne _ _ _ (by decide),
    collectIds_str, collectIdsFields_nil]
  simp [idHeadIds]

theorem count_collectIdsFields_dictInsert (a : String) (temp : List (String × JVal))
    (k : String) (v : JVal) (hk : k ≠ "@id") :
    (collectIdsFields (dictInsert temp k v)).count a ≤
      (collectIdsFields temp).count a + (collectIds v).count a := by
  induction temp with
  | nil =>
      rw [dictInsert, collectIdsFields_cons_ne k v [] hk, collectIdsFields_nil]
      simp
  | cons kv rest ih =>
      obtain ⟨k2, v2⟩ := kv
      by_cases hkk : k2 = k
      · subst hkk
        rw [dictInsert, if_pos rfl, collectIdsFields_cons_ne k2 v rest hk,
          collectIdsFields_cons_ne k2 v2 rest hk]
        simp only [List.count_append]
        omega
      · rw [dictInsert, if_neg hkk]
        by_cases hid : k2 = "@id"
        · subst hid
          rw [collectIdsFields_cons_id, collectIdsFields_cons_id]
          simp only [List.count_append]
          omega
        · rw [collectIdsFields_cons_ne k2 v2 _ hid, collectIdsFields_cons_ne k2 v2 _ hid]
          simp only [List.count_append]
          omega

mutual
/-- Invariant of `__iterate_function`: the returned `uidindex` extends the
given one by exactly the identifiers assigned in this call; extension
preserves `Nodup` (each appended uid leaves the dedup loop only when it
is absent from the index); and every `'@id'` in the returned tree occurs
at most as often as in the appended segment. -/
theorem iterateFn_inv (it : JVal) (idx : List String) (prev : Option String)
    (hg : GoodElem it) :
    ∃ δ, (iterateFn it idx prev).2 = idx ++ δ ∧
      (idx.Nodup → (idx ++ δ).Nodup) ∧
      (∀ a, (collectIds (iterateFn it idx prev).1).count a ≤ δ.count a) := by
  cases hg with
  | str s =>
      exact ⟨[], by simp [iterateFn_str], by simp,
        by simp [iterateFn_str, collectIds_str]⟩
  | obj flds hflds =>
      rw [iterateFn_obj]
      set uid : String := freshUid (prevStr prev ++ categoryOf flds ++ "/1/") idx
        with huiddef
      have huid : uid ∉ idx := by
        rw [huiddef]
        exact freshUid_slash_one_not_mem (prevStr prev ++ categoryOf flds) idx
      obtain ⟨δ₂, h1, h2, h3⟩ := iterateFields_inv flds uid
        [("@id", JVal.str uid), ("@type", JVal.str ("sdo:" ++ categoryOf flds))]
        (idx ++ [uid]) hflds
      refine ⟨uid :: δ₂, ?_, ?_, ?_⟩
      · rw [h1, List.append_assoc, List.singleton_append]
      · intro hnodup
        have hmid : (idx ++ [uid]).Nodup := by
          rw [List.nodup_append]
          exact ⟨hnodup, List.nodup_singleton uid, by simpa using huid⟩
        have := h2 hmid
        rw [List.append_assoc, List.singleton_append] at this
        exact this
      · intro a
        have hcc : (uid :: δ₂).count a = ([uid] ++ δ₂).count a := by
          rw [List.singleton_append]
        rw [collectIds_obj, hcc, List.count_append]
        have := h3 a
        rw [collectIdsFields_seed] at this
        exact this
  termination_by sizeOf it
  decreasing_by all_goals simp_wf

theorem iterateFields_inv (flds : List (String × JVal)) (uid : String)
    (temp : List (String × JVal)) (idx : List String)
    (hg : ∀ kv ∈ flds, GoodVal kv.2) :
    ∃ δ, (iterateFields flds uid temp idx).2 = idx ++ δ ∧
      (idx.Nodup → (idx ++ δ).Nodup) ∧
      (∀ a, (collectIdsFields (iterateFields flds uid temp idx).1).count a ≤
        (collectIdsFields temp).count a + δ.count a) := by
  match flds with
  | [] =>
      exact ⟨[], by simp [iterateFields_nil], by simp, by simp [iterateFields_nil]⟩
  | (key, JVal.str s) :: rest =>
      have hrest : ∀ kv ∈ rest, GoodVal kv.2 := fun kv h => hg kv (by simp [h])
      by_cases hkey : key = "@id"
      · subst hkey
        rw [iterateFields_atid]
        exact iterateFields_inv rest uid temp idx hrest
      · rw [iterateFields_str key s rest uid temp idx hkey]
        obtain ⟨δ, h1, h2, h3⟩ :=
          iterateFields_inv rest uid (dictInsert temp key (JVal.str s)) idx hrest
        refine ⟨δ, h1, h2, ?_⟩
        intro a
        have hd := count_collectIdsFields_dictInsert a temp key (JVal.str s) hkey
        rw [collectIds_str] at hd
        have := h3 a
        simp only [List.count_nil] at hd
        omega
  | (key, JVal.obj o) :: rest =>
      have hrest : ∀ kv ∈ rest, GoodVal kv.2 := fun kv h => hg kv (by simp [h])
      by_cases hkey : key = "@id"
      · subst hkey
        rw [iterateFields_atid]
        exact iterateFields_inv rest uid temp idx hrest
      · have ho : ∀ kv ∈ o, GoodVal kv.2 := by
          have hval : GoodVal (JVal.obj o) := hg (key, JVal.obj o) (by simp)
          cases hval with
          | obj _ h => exact h
        rw [iterateFields_obj key o rest uid temp idx hkey]
        obtain ⟨δ₁, h11, h12, h13⟩ := iterateFn_inv (JVal.obj o) idx (some uid)
          (GoodElem.obj o ho)
        obtain ⟨δ₂, h21, h22, h23⟩ :=
          iterateFields_inv rest uid
            (dictInsert temp key (iterateFn (JVal.obj o) idx (some uid)).1)
            ((iterateFn (JVal.obj o) idx (some uid)).2) hrest
        rw [h11] at h21 h22 h23 ⊢
        refine ⟨δ₁ ++ δ₂, ?_, ?_, ?_⟩
        · rw [h21, List.append_assoc]
        · intro hnodup
          have := h22 (h12 hnodup)
          rwa [List.append_assoc] at this
        · intro a
          have hd := count_collectIdsFields_dictInsert a temp key
            (iterateFn (JVal.obj o) idx (some uid)).1 hkey
          have hv := h13 a
          have ht := h23 a
          simp only [List.count_append]
          omega
  | (key, JVal.arr l) :: rest =>
      have hrest : ∀ kv ∈ rest, GoodVal kv.2 := fun kv h => hg kv (by simp [h])
      by_cases hkey : key = "@id"
      · subst hkey
        rw [iterateFields_atid]
        exact iterateFields_inv rest uid temp idx hrest
      · have hl : ∀ e ∈ l, GoodElem e := by
          have hval : GoodVal (JVal.arr l) := hg (key, JVal.arr l) (by simp)
          cases hval with
          | arr _ h => exact h
        rw [iterateFields_arr key l rest uid temp idx hkey]
        obtain ⟨δ₁, h11, h12, h13⟩ := iterateElems_inv l uid idx hl
        obtain ⟨δ₂, h21, h22, h23⟩ :=
          iterateFields_inv rest uid
            (dictInsert temp key (JVal.arr (iterateElems l uid idx).1))
            ((iterateElems l uid idx).2) hrest
        rw [h11] at h21 h22 h23 ⊢
        refine ⟨δ₁ ++ δ₂, ?_, ?_, ?_⟩
        · rw [h21, List.append_assoc]
        · intro hnodup
          have := h22 (h12 hnodup)
          rwa [List.append_assoc] at this
        · intro a
          have hd := count_collectIdsFields_dictInsert a temp key
            (JVal.arr (iterateElems l uid idx).1) hkey
          rw [collectIds_arr] at hd
          have hv := h13 a
          have ht := h23 a
          simp only [List.count_append]
          omega
  termination_by sizeOf flds
  decreasing_by all_goals (simp_wf <;> omega)

theorem iterateElems_inv (l : List JVal) (uid : String) (idx : List String)
    (hg : ∀ e ∈ l, GoodElem e) :
    ∃ δ, (iterateElems l uid idx).2 = idx ++ δ ∧
      (idx.Nodup → (idx ++ δ).Nodup) ∧
      (∀ a, (collectIdsList (iterateElems l uid idx).1).count a ≤ δ.count a) := by
  match l with
  | [] =>
      exact ⟨[], by simp [iterateElems_nil], by simp,
        by simp [iterateElems_nil, collectIdsList_nil]⟩
  | e :: rest =>
      rw [iterateElems_cons]
      obtain ⟨δ₁, h11, h12, h13⟩ := iterateFn_inv e idx (some uid) (hg e (by simp))
      obtain ⟨δ₂, h21, h22, h23⟩ := iterateElems_inv rest uid
        ((iterateFn e idx (some uid)).2) (fun x h => hg x (by simp [h]))
      rw [h11] at h21 h22 h23 ⊢
      refine ⟨δ₁ ++ δ₂, ?_, ?_, ?_⟩
      · rw [h21, List.append_assoc]
      · intro hnodup
        have := h22 (h12 hnodup)
        rwa [List.append_assoc] at this
      · intro a
        rw [collectIdsList_cons]
        simp only [List.count_append]
        have := h13 a
        have := h23 a
        omega
  termination_by sizeOf l
  decreasing_by all_goals (simp_wf <;> omega)
end

theorem assembleAux_cons (e : JVal) (rest : List JVal) (idx : List String) :
    assembleAux (e :: rest) idx =
      ((iterateFn e idx none).1 :: (assembleAux rest (iterateFn e idx none).2).1,
       (assembleAux rest (iterateFn e idx none).2).2) := by
  rw [assembleAux]

theorem assembleAux_inv :
    ∀ (l : List JVal) (idx : List String), (∀ e ∈ l, GoodElem e) →
      ∃ δ, (assembleAux l idx).2 = idx ++ δ ∧
        (idx.Nodup → (idx ++ δ).Nodup) ∧
        (∀ a, (collectIdsList (assembleAux l idx).1).count a ≤ δ.count a) := by
  intro l
  induction l with
  | nil =>
      intro idx _
      exact ⟨[], by simp [assembleAux], by simp, by simp [assembleAux, collectIdsList_nil]⟩
  | cons e rest ih =>
      intro idx hg
      rw [assembleAux_cons]
      obtain ⟨δ₁, h11, h12, h13⟩ := iterateFn_inv e idx none (hg e (by simp))
      obtain ⟨δ₂, h21, h22, h23⟩ := ih ((iterateFn e idx none).2)
        (fun x h => hg x (by simp [h]))
      rw [h11] at h21 h22 h23 ⊢
      refine ⟨δ₁ ++ δ₂, ?_, ?_, ?_⟩
      · rw [h21, List.append_assoc]
      · intro hnodup
        have := h22 (h12 hnodup)
        rwa [List.append_assoc] at this
      · intro a
        rw [collectIdsList_cons]
        simp only [List.count_append]
        have := h13 a
        have := h23 a
        omega

/-- C1: one call of the identifier assigner (`SciData.aspects`; `facets`
and `datapoint` run the identical loop) never assembles two nodes with the
same `'@id'` — in particular no two direct children of one parent share an
identifier — and a candidate identifier colliding with an
already-assigned one is resolved by incrementing its trailing integer
suffix (`enumuid`) until it is unique (`freshUid`).  The hypothesis
restricts inputs to trees on which the source terminates normally
(see `GoodElem`). -/
theorem aspects_assigned_ids_nodup (l : List JVal) (h : ∀ e ∈ l, GoodElem e) :
    (collectIdsList (aspects [] l)).Nodup ∧
      (∀ b n idx, enumuid (canUid b n) = canUid b (n + 1) ∧
        freshUid (canUid b n) idx ∉ idx) := by
  constructor
  · obtain ⟨δ, h1, h2, h3⟩ := assembleAux_inv l [] h
    have hδ : δ.Nodup := by simpa using h2 (List.nodup_nil)
    rw [List.nodup_iff_count_le_one] at hδ ⊢
    intro a
    have hc := h3 a
    have : (collectIdsList (aspects [] l)).count a =
        (collectIdsList (assembleAux l []).1).count a := by
      simp [aspects]
    rw [this]
    exact le_trans hc (hδ a)
  · intro b n idx
    exact ⟨enumuid_canonical b n, freshUid_not_mem b n idx⟩

/-- Two grouped records with the same declared id: the assigner must
de-duplicate their identifiers. -/
def aspectsDemo : List JVal :=
  [JVal.obj [("@id", JVal.str "measurement"), ("value", JVal.str "1.0")],
   JVal.obj [("@id", JVal.str "measurement"), ("value", JVal.str "2.0")]]

theorem aspects_assigned_ids_nodup_witness :
    (∀ e ∈ aspectsDemo, GoodElem e) ∧
      ((collectIdsList (aspects [] aspectsDemo)).Nodup ∧
        (∀ b n idx, enumuid (canUid b n) = canUid b (n + 1) ∧
          freshUid (canUid b n) idx ∉ idx)) := by
  have hg : ∀ e ∈ aspectsDemo, GoodElem e := by
    intro e he
    simp [aspectsDemo] at he
    rcases he with rfl | rfl <;>
      refine GoodElem.obj _ ?_ <;>
      · intro kv hkv
        simp at hkv
        rcases hkv with rfl | rfl <;> exact GoodVal.str _
  exact ⟨hg, aspects_assigned_ids_nodup aspectsDemo hg⟩

/- ------------------------------------------------------------------ -/
/- `scidata_xwalker.py`: `crosswalker`.                                -/
/- ------------------------------------------------------------------ -/

mutual
/-- A value of the input tree handled by `scidata_xwalker.py`: a string or
int scalar (floats pass through unexamined and are not modelled), the
stringified annotated record written by `crosswalker` (a `str` starting
with `'{'` in the source, holding the dict `scidata_value`-plus-entry;
modelled structurally), a dict, or a list.  Dict field lists and element
lists are part of the mutual inductive so that all recursions stay
structural (and therefore kernel-evaluable). -/
inductive XVal : Type where
  | s (v : String)
  | i (v : Int)
  | ann (value : XVal) (entry : List (String × String))
  | obj (fields : XFields)
  | arr (elems : XElems)

/-- The fields of a dict, in insertion order. -/
inductive XFields : Type where
  | nil
  | cons (key : String) (value : XVal) (rest : XFields)

/-- The elements of a list. -/
inductive XElems : Type where
  | nil
  | cons (value : XVal) (rest : XElems)
end

/-- Python `type(y) in [str, int, float]` — the stringified annotation is a
`str` and therefore counts as a scalar. -/
def isScalarPy : XVal → Bool
  | XVal.s _ => true
  | XVal.i _ => true
  | XVal.ann _ _ => true
  | XVal.obj _ => false
  | XVal.arr _ => false

/-- A crosswalk entry: a dict of string fields. -/
abbrev CW := List (String × String)

/-- The generator condition of `crosswalker`'s `next(...)`:
`cw[cw_field] == x` and, when `cw_table` is truthy, `cw[cw_table] == sci_dir`
(entries are assumed to carry the looked-up keys — Python would raise
`KeyError` otherwise; a failed lookup is modelled as a non-match).
`cw_table = ""` models a falsy `cw_table` argument. -/
def cwMatches (f t : String) (x dir : String) (cw : CW) : Bool :=
  if t = "" then alookup cw f == some x
  else (alookup cw f == some x) && (alookup cw t == some dir)

/-- `out = {"scidata_value": y}; out.update(match); out.pop('updated', None);
sci_input[x] = str(out)` — the stringified dict is modelled structurally
(its later consumer `ast.literal_eval` parses it back). -/
def mkAnn (y : XVal) (cw : CW) : XVal := XVal.ann y (eraseKey cw "updated")

mutual
/-- `crosswalker(sci_dir, sci_input, crosswalks, cw_field, cw_table)` with
the in-place mutation made pure: a scalar field whose name (and enclosing
dir, when `cw_table` is truthy) first matches a crosswalk entry is
replaced by the stringified annotated record; dict values recurse with
the field name as the new `sci_dir`; list elements recurse likewise. -/
def crosswalker (dir : String) (flds : XFields) (cws : List CW)
    (f t : String) : XFields :=
  match flds with
  | XFields.nil => XFields.nil
  | XFields.cons x y rest =>
      let y2 :=
        match y with
        | XVal.obj o => XVal.obj (crosswalker x o cws f t)
        | XVal.arr l => XVal.arr (crosswalkerElems x l cws f t)
        | y =>
            match cws.find? (cwMatches f t x dir) with
            | some cw => mkAnn y cw
            | none => y
      XFields.cons x y2 (crosswalker dir rest cws f t)

/-- The `for z in y: crosswalker(x, z, ...)` loop.  A list element that is
not a dict makes the source raise (`z.items()` on a non-dict); it is
returned unchanged here, and the theorems do not depend on that branch. -/
def crosswalkerElems (dir : String) (l : XElems) (cws : List CW)
    (f t : String) : XElems :=
  match l with
  | XElems.nil => XElems.nil
  | XElems.cons z rest =>
      let z2 :=
        match z with
        | XVal.obj o => XVal.obj (crosswalker dir o cws f t)
        | z => z
      XElems.cons z2 (crosswalkerElems dir rest cws f t)
end

/-- Positional lookup in a field list. -/
def xfieldsGet : XFields → Nat → Option (String × XVal)
  | XFields.nil, _ => none
  | XFields.cons k v _, 0 => some (k, v)
  | XFields.cons _ _ rest, n + 1 => xfieldsGet rest n

theorem crosswalker_nil (dir : String) (cws : List CW) (f t : String) :
    crosswalker dir XFields.nil cws f t = XFields.nil := by
  rw [crosswalker]

theorem crosswalker_cons_scalar (dir x : String) (y : XVal) (rest : XFields)
    (cws : List CW) (f t : String) (hy : isScalarPy y = true) :
    crosswalker dir (XFields.cons x y rest) cws f t =
      XFields.cons x
        (match cws.find? (cwMatches f t x dir) with
         | some cw => mkAnn y cw
         | none => y)
        (crosswalker dir rest cws f t) := by
  cases y with
  | s v => rw [crosswalker] <;> intro _ h <;> exact XVal.noConfusion h
  | i v => rw [crosswalker] <;> intro _ h <;> exact XVal.noConfusion h
  | ann v e => rw [crosswalker] <;> intro _ h <;> exact XVal.noConfusion h
  | obj o => simp [isScalarPy] at hy
  | arr l => simp [isScalarPy] at hy

theorem crosswalker_cons_tail (dir x : String) (y : XVal) (rest : XFields)
    (cws : List CW) (f t : String) :
    ∃ y2, crosswalker dir (XFields.cons x y rest) cws f t =
      XFields.cons x y2 (crosswalker dir rest cws f t) := by
  cases y <;>
    exact ⟨_, by rw [crosswalker] <;> intro _ h <;> exact XVal.noConfusion h⟩

theorem find?_eq_head_filter {α : Type} (p : α → Bool) (l : List α) :
    (l.filter p = [] → l.find? p = none) ∧
    (∀ e es, l.filter p = e :: es → l.find? p = some e) := by
  induction l with
  | nil => simp
  | cons a rest ih =>
      by_cases ha : p a = true
      · refine ⟨?_, ?_⟩
        · intro h
          rw [List.filter_cons_of_pos ha] at h
          exact absurd h (by simp)
        · intro e es h
          rw [List.filter_cons_of_pos ha] at h
          injection h with h1 _
          rw [List.find?_cons_of_pos _ ha, h1]
      · have ha2 : p a = false := by simpa using ha
        refine ⟨?_, ?_⟩
        · intro h
          rw [List.filter_cons_of_neg (by simp [ha2])] at h
          rw [List.find?_cons_of_neg _ (by simp [ha2])]
          exact ih.1 h
        · intro e es h
          rw [List.filter_cons_of_neg (by simp [ha2])] at h
          rw [List.find?_cons_of_neg _ (by simp [ha2])]
          exact ih.2 e es h

/-- C3 (amended): a scalar leaf is annotated by `crosswalker` iff at least
one crosswalk entry matches its field name (and its enclosing table name,
when table matching is enabled): with zero matching entries the leaf is
left unchanged, and with one or more the first matching entry in table
order is attached. -/
theorem crosswalker_annotates_iff_match (dir : String) (flds : XFields)
    (cws : List CW) (f t : String) (i : Nat) (x : String) (y : XVal)
    (hi : xfieldsGet flds i = some (x, y)) (hy : isScalarPy y = true) :
    (cws.filter (cwMatches f t x dir) = [] →
      xfieldsGet (crosswalker dir flds cws f t) i = some (x, y)) ∧
    (∀ e es, cws.filter (cwMatches f t x dir) = e :: es →
      xfieldsGet (crosswalker dir flds cws f t) i = some (x, mkAnn y e)) := by
  match flds, i with
  | XFields.nil, i => rw [xfieldsGet] at hi; exact absurd hi (by simp)
  | XFields.cons k v rest, 0 =>
      rw [xfieldsGet] at hi
      injection hi with hi
      have hk : k = x := congrArg Prod.fst hi
      have hv : v = y := congrArg Prod.snd hi
      subst hk
      subst hv
      rw [crosswalker_cons_scalar dir k v rest cws f t hy]
      refine ⟨?_, ?_⟩
      · intro h
        rw [(find?_eq_head_filter (cwMatches f t k dir) cws).1 h]
        rw [xfieldsGet]
      · intro e es h
        rw [(find?_eq_head_filter (cwMatches f t k dir) cws).2 e es h]
        rw [xfieldsGet]
  | XFields.cons k v rest, n + 1 =>
      rw [xfieldsGet] at hi
      obtain ⟨y2, hy2⟩ := crosswalker_cons_tail dir k v rest cws f t
      rw [hy2]
      have hrec := crosswalker_annotates_iff_match dir rest cws f t n x y hi hy
      refine ⟨fun h => ?_, fun e es h => ?_⟩
      · rw [xfieldsGet]
        exact hrec.1 h
      · rw [xfieldsGet]
        exact hrec.2 e es h
  termination_by sizeOf flds

/-- A field list with one scalar leaf, and crosswalk tables for the
annotation witnesses: `w3cwA` matches the leaf, `w3cwB` does not. -/
def w3flds : XFields := XFields.cons "casrn" (XVal.s "50-00-0") XFields.nil

def w3cwA : CW := [("field", "casrn"), ("sdsection", "system")]

def w3cwB : CW := [("field", "other"), ("sdsection", "dataset")]

theorem crosswalker_annotates_iff_match_witness :
    xfieldsGet w3flds 0 = some ("casrn", XVal.s "50-00-0") ∧
      isScalarPy (XVal.s "50-00-0") = true ∧
      (([w3cwB].filter (cwMatches "field" "" "casrn" "tbl") = [] →
        xfieldsGet (crosswalker "tbl" w3flds [w3cwB] "field" "") 0 =
          some ("casrn", XVal.s "50-00-0")) ∧
      (∀ e es, [w3cwB].filter (cwMatches "field" "" "casrn" "tbl") = e :: es →
        xfieldsGet (crosswalker "tbl" w3flds [w3cwB] "field" "") 0 =
          some ("casrn", mkAnn (XVal.s "50-00-0") e))) :=
  ⟨rfl, by decide,
    crosswalker_annotates_iff_match "tbl" w3flds [w3cwB] "field" "" 0 "casrn"
      (XVal.s "50-00-0") rfl (by decide)⟩

/-- Two crosswalk entries that both match field `a`. -/
def c3cws : List CW :=
  [[("field", "a"), ("sdsection", "system")],
   [("field", "a"), ("sdsection", "dataset")]]

def c3tree : XFields := XFields.cons "a" (XVal.s "v") XFields.nil

/-- The annotation payload of a leaf value, `none` for a plain scalar. -/
def annEntry : XVal → Option (List (String × String))
  | XVal.ann _ e => some e
  | _ => none

/-- C3 as stated is false: both entries of `c3cws` match the leaf `a`
(match count 2), yet `crosswalker` does not leave the leaf unchanged — it
annotates it with the first matching entry. -/
theorem crosswalker_multimatch_annotates :
    (c3cws.filter (cwMatches "field" "" "a" "tbl")).length = 2 ∧
      (xfieldsGet c3tree 0).map (fun kv => annEntry kv.2) = some none ∧
      (xfieldsGet (crosswalker "tbl" c3tree c3cws "field" "") 0).map
          (fun kv => annEntry kv.2) =
        some (some [("field", "a"), ("sdsection", "system")]) := by
  refine ⟨by decide, by decide, by decide⟩

/-- C9: when several crosswalk entries match a scalar leaf, the first
matching entry in table order is attached, whatever matching entries
follow it (`cws₂` is arbitrary). -/
theorem crosswalker_first_match_wins (dir x : String) (y : XVal)
    (cws₁ cws₂ : List CW) (e : CW) (f t : String) (hy : isScalarPy y = true)
    (hfind : cws₁.find? (cwMatches f t x dir) = some e)
    (_hlater : ∃ e2 ∈ cws₂, cwMatches f t x dir e2 = true) :
    crosswalker dir (XFields.cons x y XFields.nil) (cws₁ ++ cws₂) f t =
      XFields.cons x (mkAnn y e) XFields.nil := by
  rw [crosswalker_cons_scalar dir x y XFields.nil (cws₁ ++ cws₂) f t hy]
  rw [crosswalker_nil]
  rw [List.find?_append, hfind]
  rfl

theorem crosswalker_first_match_wins_witness :
    isScalarPy (XVal.s "v") = true ∧
      [[("field", "a"), ("sdsection", "system")]].find?
          (cwMatches "field" "" "a" "tbl") =
        some [("field", "a"), ("sdsection", "system")] ∧
      (∃ e2 ∈ [[("field", "a"), ("sdsection", "dataset")]],
        cwMatches "field" "" "a" "tbl" e2 = true) ∧
      crosswalker "tbl" (XFields.cons "a" (XVal.s "v") XFields.nil)
          ([[("field", "a"), ("sdsection", "system")]] ++
            [[("field", "a"), ("sdsection", "dataset")]]) "field" "" =
        XFields.cons "a"
          (mkAnn (XVal.s "v") [("field", "a"), ("sdsection", "system")])
          XFields.nil :=
  ⟨by decide, by decide, by decide,
    crosswalker_first_match_wins "tbl" "a" (XVal.s "v")
      [[("field", "a"), ("sdsection", "system")]]
      [[("field", "a"), ("sdsection", "dataset")]]
      [("field", "a"), ("sdsection", "system")] "field" "" (by decide)
      (by decide) (by decide)⟩

/- ------------------------------------------------------------------ -/
/- `scidata_xwalker.py`: `flatten_json_iterative_solution`.            -/
/- ------------------------------------------------------------------ -/

/-- `unpack` on a dict value: one pair per field, key = parent key, `';'`,
field name. -/
def unpackFields (k : String) : XFields → List (String × XVal)
  | XFields.nil => []
  | XFields.cons key value rest => (k ++ ";" ++ key, value) :: unpackFields k rest

/-- `unpack` on a list value: one pair per element, key = parent key, `';'`,
running index rendered with `str`. -/
def unpackElems (k : String) : Nat → XElems → List (String × XVal)
  | _, XElems.nil => []
  | i, XElems.cons value rest =>
      (k ++ ";" ++ natToStr i, value) :: unpackElems k (i + 1) rest

/-- `unpack(parent_key, parent_value)`: one level of nesting; a scalar
yields itself. -/
def unpackEntry : String × XVal → List (String × XVal)
  | (k, XVal.obj flds) => unpackFields k flds
  | (k, XVal.arr l) => unpackElems k 0 l
  | (k, v) => [(k, v)]

/-- `dict(chain.from_iterable(...))` — Python dict construction from pairs:
a repeated key keeps its first position and the last value. -/
def dictOfPairs (ps : List (String × XVal)) : List (String × XVal) :=
  ps.foldl (fun acc p => dictInsert acc p.1 p.2) []

/-- One pass of the `while True` loop. -/
def flatten_step (m : List (String × XVal)) : List (String × XVal) :=
  dictOfPairs (m.map unpackEntry).flatten

/-- `not isinstance(value, dict) and not isinstance(value, list)`. -/
def isFlatVal : XVal → Bool
  | XVal.obj _ => false
  | XVal.arr _ => false
  | _ => true

/-- The loop's termination condition: no value is a dict or a list. -/
def isFlat (m : List (String × XVal)) : Bool := m.all (fun p => isFlatVal p.2)

mutual
/-- Nesting weight of a value: scalars (including the stringified
annotation, which flattening treats as an atomic `str`) weigh nothing;
each dict or list layer weighs one plus its children. -/
def sizeX : XVal → Nat
  | XVal.s _ => 0
  | XVal.i _ => 0
  | XVal.ann _ _ => 0
  | XVal.obj flds => 1 + sizeF flds
  | XVal.arr l => 1 + sizeE l

def sizeF : XFields → Nat
  | XFields.nil => 0
  | XFields.cons _ v rest => sizeX v + sizeF rest

def sizeE : XElems → Nat
  | XElems.nil => 0
  | XElems.cons v rest => sizeX v + sizeE rest
end

def mSize (m : List (String × XVal)) : Nat := (m.map (fun p => sizeX p.2)).sum

/-- The `while True` loop with fuel: each iteration replaces the dict by
one unpacking pass and stops when no value is nested; `none` models fuel
exhaustion, and `flattenAux_suff` proves the wrapper's fuel never runs
out. -/
def flattenAux : Nat → List (String × XVal) → Option (List (String × XVal))
  | 0, _ => none
  | fuel + 1, m =>
      let m2 := flatten_step m
      if isFlat m2 then some m2 else flattenAux fuel m2

/-- `flatten_json_iterative_solution(dictionary)`. -/
def flatten_json_iterative_solution (m : List (String × XVal)) :
    Option (List (String × XVal)) :=
  flattenAux (mSize m + 1) m

theorem mSize_append (l₁ l₂ : List (String × XVal)) :
    mSize (l₁ ++ l₂) = mSize l₁ + mSize l₂ := by
  simp [mSize]

theorem mSize_unpackFields (k : String) (flds : XFields) :
    mSize (unpackFields k flds) = sizeF flds := by
  match flds with
  | XFields.nil => simp [unpackFields, mSize, sizeF]
  | XFields.cons key v rest =>
      have ih := mSize_unpackFields k rest
      simp [unpackFields, mSize, sizeF] at ih ⊢
      omega
  termination_by sizeOf flds

theorem mSize_unpackElems (k : String) (l : XElems) :
    ∀ i, mSize (unpackElems k i l) = sizeE l := by
  match l with
  | XElems.nil => intro i; simp [unpackElems, mSize, sizeE]
  | XElems.cons v rest =>
      intro i
      have ih := mSize_unpackElems k rest (i + 1)
      simp [unpackElems, mSize, sizeE] at ih ⊢
      omega
  termination_by sizeOf l

theorem mSize_unpackEntry_le (k : String) (v : XVal) :
    mSize (unpackEntry (k, v)) ≤ sizeX v ∧
      (isFlatVal v = false → mSize (unpackEntry (k, v)) < sizeX v) := by
  cases v with
  | s a => simp [unpackEntry, mSize, sizeX, isFlatVal]
  | i a => simp [unpackEntry, mSize, sizeX, isFlatVal]
  | ann a e => simp [unpackEntry, mSize, sizeX, isFlatVal]
  | obj flds =>
      rw [unpackEntry]
      simp [mSize_unpackFields, sizeX, isFlatVal]
  | arr l =>
      rw [unpackEntry]
      simp [mSize_unpackElems, sizeX, isFlatVal]

theorem mSize_dictInsert (acc : List (String × XVal)) (k : String) (v : XVal) :
    mSize (dictInsert acc k v) ≤ mSize acc + sizeX v := by
  induction acc with
  | nil => simp [dictInsert, mSize]
  | cons kv rest ih =>
      obtain ⟨k2, v2⟩ := kv
      by_cases hk : k2 = k
      · simp [dictInsert, hk, mSize]
        omega
      · simp [dictInsert, hk, mSize] at ih ⊢
        omega

theorem mSize_dictOfPairs_aux (ps acc : List (String × XVal)) :
    mSize (ps.foldl (fun acc p => dictInsert acc p.1 p.2) acc) ≤ mSize acc + mSize ps := by
  induction ps generalizing acc with
  | nil => simp [mSize]
  | cons p rest ih =>
      rw [List.foldl_cons]
      calc mSize (rest.foldl (fun acc p => dictInsert acc p.1 p.2) (dictInsert acc p.1 p.2))
          ≤ mSize (dictInsert acc p.1 p.2) + mSize rest := ih _
        _ ≤ mSize acc + sizeX p.2 + mSize rest := by
            have := mSize_dictInsert acc p.1 p.2
            omega
        _ ≤ mSize acc + mSize (p :: rest) := by
            simp [mSize]
            omega

theorem mSize_dictOfPairs (ps : List (String × XVal)) :
    mSize (dictOfPairs ps) ≤ mSize ps := by
  have := mSize_dictOfPairs_aux ps []
  simpa [dictOfPairs, mSize] using this

theorem mSize_joined (m : List (String × XVal)) :
    mSize (m.map unpackEntry).flatten ≤ mSize m ∧
      (isFlat m = false → mSize (m.map unpackEntry).flatten < mSize m) := by
  induction m with
  | nil => simp [mSize, isFlat]
  | cons kv rest ih =>
      obtain ⟨k, v⟩ := kv
      have hh := mSize_unpackEntry_le k v
      rw [List.map_cons, List.flatten_cons]
      rw [mSize_append]
      have hm : mSize ((k, v) :: rest) = sizeX v + mSize rest := by
        simp [mSize]
      constructor
      · omega
      · intro hnot
        rw [isFlat, List.all_cons] at hnot
        rcases Bool.and_eq_false_iff.mp hnot with h | h
        · have := hh.2 h
          omega
        · have := ih.2 (by rw [isFlat]; exact h)
          omega

theorem step_decrease (m : List (String × XVal)) (h : isFlat m = false) :
    mSize (flatten_step m) < mSize m := by
  rw [flatten_step]
  have h1 := mSize_dictOfPairs (m.map unpackEntry).flatten
  have h2 := (mSize_joined m).2 h
  omega

theorem dictInsert_val_mem {α : Type} (acc : List (String × α)) (k : String) (v : α) :
    ∀ q ∈ dictInsert acc k v, q.2 = v ∨ q ∈ acc := by
  induction acc with
  | nil => intro q hq; simp [dictInsert] at hq; simp [hq]
  | cons kv rest ih =>
      intro q hq
      by_cases hk : kv.1 = k
      · rw [dictInsert, if_pos hk] at hq
        rcases List.mem_cons.mp hq with h | h
        · left; rw [h]
        · right; exact List.mem_cons_of_mem _ h
      · rw [dictInsert, if_neg hk] at hq
        rcases List.mem_cons.mp hq with h | h
        · right; rw [h]; exact List.mem_cons_self _ _
        · rcases ih q h with h2 | h2
          · left; exact h2
          · right; exact List.mem_cons_of_mem _ h2

theorem foldl_dictInsert_flat (ps : List (String × XVal)) :
    ∀ acc, (∀ p ∈ acc, isFlatVal p.2 = true) → (∀ p ∈ ps, isFlatVal p.2 = true) →
      ∀ q ∈ ps.foldl (fun acc p => dictInsert acc p.1 p.2) acc,
        isFlatVal q.2 = true := by
  induction ps with
  | nil =>
      intro acc hacc _ q hq
      exact hacc q (by simpa using hq)
  | cons p rest ih =>
      intro acc hacc hps q hq
      rw [List.foldl_cons] at hq
      refine ih (dictInsert acc p.1 p.2) ?_
        (fun x hx => hps x (List.mem_cons_of_mem _ hx)) q hq
      intro x hx
      rcases dictInsert_val_mem acc p.1 p.2 x hx with h2 | h2
      · rw [h2]
        exact hps p (List.mem_cons_self _ _)
      · exact hacc x h2

theorem dictOfPairs_flat (ps : List (String × XVal))
    (h : ∀ p ∈ ps, isFlatVal p.2 = true) :
    ∀ q ∈ dictOfPairs ps, isFlatVal q.2 = true := by
  rw [dictOfPairs]
  exact foldl_dictInsert_flat ps [] (by simp) h

theorem joined_flat_of_flat (m : List (String × XVal)) (h : isFlat m = true) :
    ∀ p ∈ (m.map unpackEntry).flatten, isFlatVal p.2 = true := by
  intro p hp
  rw [List.mem_flatten] at hp
  obtain ⟨l, hl, hpl⟩ := hp
  rw [List.mem_map] at hl
  obtain ⟨kv, hkv, rfl⟩ := hl
  have hflat : isFlatVal kv.2 = true := by
    rw [isFlat, List.all_eq_true] at h
    exact h kv hkv
  obtain ⟨k, v⟩ := kv
  cases v with
  | s a => simp [unpackEntry] at hpl; simp [hpl, isFlatVal]
  | i a => simp [unpackEntry] at hpl; simp [hpl, isFlatVal]
  | ann a e => simp [unpackEntry] at hpl; simp [hpl, isFlatVal]
  | obj flds => simp [isFlatVal] at hflat
  | arr l => simp [isFlatVal] at hflat

theorem step_flat_of_flat (m : List (String × XVal)) (h : isFlat m = true) :
    isFlat (flatten_step m) = true := by
  rw [flatten_step, isFlat, List.all_eq_true]
  exact dictOfPairs_flat _ (joined_flat_of_flat m h)

theorem flattenAux_suff :
    ∀ n m, mSize m < n →
      ∃ r, flattenAux n m = some r ∧ isFlat r = true := by
  intro n
  induction n with
  | zero => intro m hm; omega
  | succ n ih =>
      intro m hm
      rw [flattenAux]
      by_cases hflat : isFlat (flatten_step m) = true
      · exact ⟨flatten_step m, by simp [hflat], hflat⟩
      · have hmn : isFlat m = false := by
          by_contra hc
          rw [Bool.not_eq_false] at hc
          exact hflat (step_flat_of_flat m hc)
        have hlt := step_decrease m hmn
        obtain ⟨r, hr, hrflat⟩ := ih (flatten_step m) (by omega)
        exact ⟨r, by simp [hflat, hr], hrflat⟩

theorem flattenAux_mono :
    ∀ n k m r, flattenAux n m = some r → flattenAux (n + k) m = some r := by
  intro n
  induction n with
  | zero => intro k m r h; rw [flattenAux] at h; exact absurd h (by simp)
  | succ n ih =>
      intro k m r h
      rw [flattenAux] at h
      have : n + 1 + k = (n + k) + 1 := by omega
      rw [this, flattenAux]
      by_cases hflat : isFlat (flatten_step m) = true
      · simp [hflat] at h ⊢
        exact h
      · simp [hflat] at h ⊢
        exact ih k (flatten_step m) r h

theorem flattenAux_agree {n₁ n₂ : Nat} {m r₁ r₂ : List (String × XVal)}
    (h₁ : flattenAux n₁ m = some r₁) (h₂ : flattenAux n₂ m = some r₂) : r₁ = r₂ := by
  have e1 := flattenAux_mono n₁ n₂ m r₁ h₁
  have e2 := flattenAux_mono n₂ n₁ m r₂ h₂
  rw [Nat.add_comm n₂ n₁] at e2
  rw [e1] at e2
  exact Option.some.inj e2

/-- C6: on every finite input tree the flattening loop exits (the wrapped
fuel suffices, and any extra fuel returns the same mapping), and the
result is a single-level mapping: no value is a dict or a list. -/
theorem flatten_total_and_flat (m : List (String × XVal)) :
    ∃ r, flatten_json_iterative_solution m = some r ∧
      (∀ kv ∈ r, isFlatVal kv.2 = true) ∧
      (∀ extra, flattenAux (mSize m + 1 + extra) m = some r) := by
  obtain ⟨r, hr, hrflat⟩ := flattenAux_suff (mSize m + 1) m (by omega)
  refine ⟨r, hr, ?_, ?_⟩
  · rw [isFlat, List.all_eq_true] at hrflat
    exact hrflat
  · intro extra
    exact flattenAux_mono (mSize m + 1) extra m r hr

theorem flatten_eq_of_step_eq (ma mb : List (String × XVal))
    (h : flatten_step ma = flatten_step mb) :
    flatten_json_iterative_solution ma = flatten_json_iterative_solution mb := by
  obtain ⟨ra, hra, -, -⟩ := flatten_total_and_flat ma
  obtain ⟨rb, hrb, -, -⟩ := flatten_total_and_flat mb
  rw [hra, hrb]
  rw [flatten_json_iterative_solution, flattenAux] at hra hrb
  rw [h] at hra
  by_cases hflat : isFlat (flatten_step mb) = true
  · simp [hflat] at hra hrb
    rw [← hra, ← hrb]
  · simp [hflat] at hra hrb
    rw [flattenAux_agree hra hrb]

/-- C10 (amended): a top-level entry whose value is an empty dict or an
empty list contributes no key to the flattened output — removing it leaves
the result unchanged.  (The same holds at deeper levels once they are
unpacked to the top.)  This does **not** make flattening blind to empty
containers in general: an empty container inside a list still occupies an
index and shifts the keys of its later siblings (see the counterexample). -/
theorem flatten_drops_empty_entry (m₁ m₂ : List (String × XVal)) (k : String)
    (v : XVal) (hv : v = XVal.obj XFields.nil ∨ v = XVal.arr XElems.nil) :
    flatten_json_iterative_solution (m₁ ++ (k, v) :: m₂) =
      flatten_json_iterative_solution (m₁ ++ m₂) := by
  apply flatten_eq_of_step_eq
  have hempty : unpackEntry (k, v) = [] := by
    rcases hv with rfl | rfl
    · rfl
    · rfl
  rw [flatten_step, flatten_step]
  congr 1
  simp [hempty]

theorem flatten_drops_empty_entry_witness :
    (XVal.obj XFields.nil = XVal.obj XFields.nil ∨
      XVal.obj XFields.nil = XVal.arr XElems.nil) ∧
      flatten_json_iterative_solution
          ([("casrn", XVal.s "50-00-0")] ++ ("empty", XVal.obj XFields.nil) ::
            [("name", XVal.s "formaldehyde")]) =
        flatten_json_iterative_solution
          ([("casrn", XVal.s "50-00-0")] ++ [("name", XVal.s "formaldehyde")]) :=
  ⟨Or.inl rfl,
    flatten_drops_empty_entry [("casrn", XVal.s "50-00-0")]
      [("name", XVal.s "formaldehyde")] "empty" (XVal.obj XFields.nil) (Or.inl rfl)⟩

def c10a : List (String × XVal) :=
  [("a", XVal.arr (XElems.cons (XVal.obj XFields.nil)
    (XElems.cons (XVal.s "x") XElems.nil)))]

def c10b : List (String × XVal) :=
  [("a", XVal.arr (XElems.cons (XVal.s "x") XElems.nil))]

/-- C10 as stated is false: `c10a` and `c10b` differ only in an empty dict
inside the list under `a`, yet they flatten to different mappings — the
empty container still consumes index `0`, so the scalar lands under
`a;1` in one and `a;0` in the other. -/
theorem flatten_empty_in_sequence_shifts_keys :
    (flatten_json_iterative_solution c10a).map (List.map Prod.fst) = some ["a;1"] ∧
      (flatten_json_iterative_solution c10b).map (List.map Prod.fst) = some ["a;0"] ∧
      flatten_json_iterative_solution c10a ≠ flatten_json_iterative_solution c10b := by
  refine ⟨by decide, by decide, ?_⟩
  intro h
  have h2 := congrArg (Option.map (List.map Prod.fst)) h
  revert h2
  decide

/- ------------------------------------------------------------------ -/
/- `scidata_xwalker.py`: `cleanup_flattened`.                          -/
/- ------------------------------------------------------------------ -/

/-- A value of the flattened mapping as `cleanup_flattened` sees it: a
plain scalar, or the stringified annotated record (a `str` starting with
`'{'`, parsed back by `ast.literal_eval`; modelled structurally, its
payload as a string dict — the claims under test only read string-valued
annotation fields). -/
inductive FlatVal : Type where
  | plain (v : String)
  | annStr (payload : List (String × String))

/-- Python `d.update(u)` on string dicts. -/
def pyUpdate (d u : List (String × String)) : List (String × String) :=
  u.foldl (fun acc p => dictInsert acc p.1 p.2) d

/-- `re.search(r'(\d+)(?!.*\d)', k)` succeeds iff `k` contains a digit. -/
def hasDigitStr (k : String) : Bool := k.data.any Char.isDigit

/-- `re.split(r'(\d+)(?!.*\d)', k)` when the search succeeds: the text
before the last maximal digit run, the captured run, and the text after
it (which contains no digit). -/
def reSplitLastDigits (k : String) : List String :=
  let r := k.data.reverse
  let post := (r.takeWhile (fun c => ¬ c.isDigit)).reverse
  let r2 := r.dropWhile (fun c => ¬ c.isDigit)
  let digits := (r2.takeWhile Char.isDigit).reverse
  let pre := (r2.dropWhile Char.isDigit).reverse
  [String.mk pre, String.mk digits, String.mk post]

/-- `re.search(r'^(\D*\d)(.*)$', k).group(1)` when the search succeeds
(iff `k` contains a digit): the prefix up to and including the first
digit. -/
def firstDigitPrefix (k : String) : String :=
  String.mk (k.data.takeWhile (fun c => ¬ c.isDigit) ++
    (k.data.dropWhile (fun c => ¬ c.isDigit)).take 1)

/-- `k.rsplit(';', 1)[0]`: the text before the last `';'`, or the whole
string when there is none. -/
def pyRsplitSemi0 (k : String) : String :=
  if k.data.contains ';' then
    String.mk (((k.data.reverse.dropWhile (fun c => c ≠ ';')).drop 1).reverse)
  else k

/-- `k.rsplit(';', 1)[1]`: the text after the last `';'`; `none` models the
`IndexError` the source raises when `k` has no separator. -/
def pyRsplitSemi1 (k : String) : Option String :=
  if k.data.contains ';' then
    some (String.mk ((k.data.reverse.takeWhile (fun c => c ≠ ';')).reverse))
  else none

/-- The per-entry body of `cleanup_flattened` for a selected (annotated)
entry: derive `scidata_group` (`re.split` on the last digit run, drop the
tail piece, re-join — or the key less its last segment when it has no
digit), `scidata_group_alt`, `scidata_key`, merge in the parsed payload,
then append `scidata_group_link`.  `none` models the exceptions the
source raises (no `';'` in the key; payload without `sdsubsection`). -/
def cleanup_entry (k : String) (payload : List (String × String)) :
    Option (List (String × String)) :=
  let sci_group :=
    if hasDigitStr k then String.join ((reSplitLastDigits k).dropLast)
    else pyRsplitSemi0 k
  let sci_group_alt :=
    if hasDigitStr k then firstDigitPrefix k
    else pyRsplitSemi0 k
  match pyRsplitSemi1 k with
  | none => none
  | some key1 =>
      let val := pyUpdate
        [("scidata_dir", k), ("scidata_key", key1),
         ("scidata_group", sci_group), ("scidata_group_alt", sci_group_alt)]
        payload
      match alookup val "sdsubsection" with
      | none => none
      | some sub =>
          some (dictInsert val "scidata_group_link" (sci_group ++ "/" ++ sub))

/-- The iteration of `cleanup_flattened`: plain entries are skipped,
annotated entries are processed and written to `output` under their key. -/
def cleanupAux :
    List (String × FlatVal) → List (String × List (String × String)) →
      Option (List (String × List (String × String)))
  | [], out => some out
  | (_, FlatVal.plain _) :: rest, out => cleanupAux rest out
  | (k, FlatVal.annStr payload) :: rest, out =>
      match cleanup_entry k payload with
      | none => none
      | some val => cleanupAux rest (dictInsert out k val)

/-- `cleanup_flattened(sci_input)`. -/
def cleanup_flattened (m : List (String × FlatVal)) :
    Option (List (String × List (String × String))) :=
  cleanupAux m []

/-- C5 as stated: the groupKey with the trailing numeric run **and**
everything after it removed (modelled from the claim's words, for the
counterexample). -/
def claimGroupKey (k : String) : String :=
  if hasDigitStr k then
    String.mk
      (((k.data.reverse.dropWhile (fun c => ¬ c.isDigit)).dropWhile
        Char.isDigit).reverse)
  else pyRsplitSemi0 k

/-- The amended wording of C5, written front-to-back: keep every character
up to and including the last digit of the key (the trailing numeric run is
retained; only what follows it is removed). -/
def upToLastDigitRun : List Char → List Char
  | [] => []
  | c :: rest =>
      if rest.any Char.isDigit then c :: upToLastDigitRun rest
      else if c.isDigit then [c]
      else []

/-- groupKey per the amended C5. -/
def amendedGroupKey (k : String) : String :=
  if hasDigitStr k then String.mk (upToLastDigitRun k.data)
  else pyRsplitSemi0 k

theorem dropWhile_append_all {α : Type} (p : α → Bool) (a b : List α)
    (h : ∀ x ∈ a, p x = true) :
    (a ++ b).dropWhile p = b.dropWhile p := by
  induction a with
  | nil => simp
  | cons y t ih =>
      have hy : p y = true := h y (by simp)
      rw [List.cons_append, List.dropWhile_cons_of_pos hy]
      exact ih (fun x hx => h x (by simp [hx]))

theorem dropWhile_append_exists {α : Type} (p : α → Bool) (a b : List α)
    (h : ∃ x ∈ a, p x = false) :
    (a ++ b).dropWhile p = a.dropWhile p ++ b := by
  induction a with
  | nil => obtain ⟨x, hx, -⟩ := h; simp at hx
  | cons y t ih =>
      by_cases hy : p y = true
      · rw [List.cons_append, List.dropWhile_cons_of_pos hy,
          List.dropWhile_cons_of_pos hy]
        refine ih ?_
        obtain ⟨x, hx, hpx⟩ := h
        rcases List.mem_cons.mp hx with rfl | hx2
        · rw [hy] at hpx; exact absurd hpx (by simp)
        · exact ⟨x, hx2, hpx⟩
      · have hy2 : p y = false := by simpa using hy
        rw [List.cons_append, List.dropWhile_cons_of_neg (by simp [hy2]),
          List.dropWhile_cons_of_neg (by simp [hy2])]
        simp

theorem upToLastDigitRun_eq (l : List Char) (h : l.any Char.isDigit = true) :
    upToLastDigitRun l =
      (l.reverse.dropWhile (fun c => ¬ c.isDigit)).reverse := by
  induction l with
  | nil => simp at h
  | cons c rest ih =>
      by_cases hrest : rest.any Char.isDigit = true
      · rw [upToLastDigitRun, if_pos hrest, ih hrest, List.reverse_cons,
          dropWhile_append_exists]
        · rw [List.reverse_append]
          rfl
        · simp only [List.any_eq_true] at hrest
          obtain ⟨x, hx, hdx⟩ := hrest
          exact ⟨x, by simp [hx], by simp [hdx]⟩
      · have hc : c.isDigit = true := by
          rw [List.any_cons] at h
          rcases Bool.or_eq_true_iff.mp h with h2 | h2
          · exact h2
          · exact absurd h2 hrest
        have hrest2 : ∀ x ∈ rest.reverse, (fun c => ¬ c.isDigit : Char → Bool) x = true := by
          intro x hx
          simp only [List.any_eq_true] at hrest
          simp only [decide_eq_true_eq]
          intro hdx
          exact hrest ⟨x, List.mem_reverse.mp hx, hdx⟩
        rw [upToLastDigitRun, if_neg (by simp [hrest]), if_pos hc,
          List.reverse_cons, dropWhile_append_all _ _ _ hrest2,
          List.dropWhile_cons_of_neg (by simp [hc])]
        rfl

theorem sci_group_eq_amended (k : String) (h : hasDigitStr k = true) :
    String.join ((reSplitLastDigits k).dropLast) =
      String.mk (upToLastDigitRun k.data) := by
  apply String.ext
  rw [upToLastDigitRun_eq k.data (by simpa [hasDigitStr] using h)]
  show (String.join [String.mk _, String.mk _]).data = _
  have hjoin : ∀ a b : List Char,
      (String.join [String.mk a, String.mk b]).data = a ++ b := by
    intro a b
    show (("" ++ String.mk a) ++ String.mk b).data = a ++ b
    rw [String.data_append, String.data_append]
    rfl
  rw [hjoin]
  rw [← List.reverse_append, List.takeWhile_append_dropWhile]

theorem alookup_dictInsert_ne {α : Type} (d : List (String × α)) (k : String)
    (v : α) (key : String) (h : k ≠ key) :
    alookup (dictInsert d k v) key = alookup d key := by
  induction d with
  | nil => simp [dictInsert, alookup, h]
  | cons kv rest ih =>
      by_cases hk : kv.1 = k
      · rw [dictInsert, if_pos hk]
        rw [alookup, if_neg h]
        rw [alookup, if_neg (fun hh => h (hk.symm.trans hh))]
      · rw [dictInsert, if_neg hk]
        by_cases hkey : kv.1 = key
        · rw [alookup, if_pos hkey, alookup, if_pos hkey]
        · rw [alookup, if_neg hkey, alookup, if_neg hkey, ih]

theorem alookup_none_forall {α : Type} (u : List (String × α)) (key : String)
    (h : alookup u key = none) : ∀ p ∈ u, p.1 ≠ key := by
  induction u with
  | nil => simp
  | cons kv rest ih =>
      intro p hp
      by_cases hk : kv.1 = key
      · rw [alookup, if_pos hk] at h
        exact absurd h (by simp)
      · rw [alookup, if_neg hk] at h
        rcases List.mem_cons.mp hp with rfl | hp2
        · exact hk
        · exact ih h p hp2

theorem alookup_pyUpdate_not_bound :
    ∀ (u d : List (String × String)) (key : String),
      (∀ p ∈ u, p.1 ≠ key) →
      alookup (pyUpdate d u) key = alookup d key := by
  intro u
  induction u with
  | nil => intro d key _; rfl
  | cons p rest ih =>
      intro d key hall
      show alookup ((p :: rest).foldl (fun acc q => dictInsert acc q.1 q.2) d) key = _
      rw [List.foldl_cons]
      have hrw : rest.foldl (fun acc q => dictInsert acc q.1 q.2)
          (dictInsert d p.1 p.2) = pyUpdate (dictInsert d p.1 p.2) rest := rfl
      rw [hrw, ih (dictInsert d p.1 p.2) key
        (fun q hq => hall q (List.mem_cons_of_mem _ hq))]
      exact alookup_dictInsert_ne d p.1 p.2 key (hall p (List.mem_cons_self _ _))

theorem dictInsert_mem_keyed {α : Type} (acc : List (String × α)) (k : String)
    (v : α) : ∀ q ∈ dictInsert acc k v, q = (k, v) ∨ q ∈ acc := by
  induction acc with
  | nil => intro q hq; simp [dictInsert] at hq; simp [hq]
  | cons kv rest ih =>
      intro q hq
      by_cases hk : kv.1 = k
      · rw [dictInsert, if_pos hk] at hq
        rcases List.mem_cons.mp hq with h | h
        · left; exact h
        · right; exact List.mem_cons_of_mem _ h
      · rw [dictInsert, if_neg hk] at hq
        rcases List.mem_cons.mp hq with h | h
        · right; rw [h]; exact List.mem_cons_self _ _
        · rcases ih q h with h2 | h2
          · left; exact h2
          · right; exact List.mem_cons_of_mem _ h2

theorem cleanup_entry_group (k : String) (p val : List (String × String))
    (hng : alookup p "scidata_group" = none)
    (h : cleanup_entry k p = some val) :
    alookup val "scidata_group" = some (amendedGroupKey k) := by
  rw [cleanup_entry] at h
  cases hks : pyRsplitSemi1 k with
  | none => rw [hks] at h; exact absurd h (by simp)
  | some key1 =>
      rw [hks] at h
      dsimp only at h
      set sci_group : String :=
        (if hasDigitStr k then String.join ((reSplitLastDigits k).dropLast)
         else pyRsplitSemi0 k) with hgdef
      set base : List (String × String) :=
        [("scidata_dir", k), ("scidata_key", key1),
         ("scidata_group", sci_group),
         ("scidata_group_alt",
           if hasDigitStr k then firstDigitPrefix k else pyRsplitSemi0 k)]
        with hbase
      cases hsub : alookup (pyUpdate base p) "sdsubsection" with
      | none => rw [hsub] at h; exact absurd h (by simp)
      | some sub =>
          rw [hsub] at h
          have hval : val = dictInsert (pyUpdate base p) "scidata_group_link"
              (sci_group ++ "/" ++ sub) := by
            injection h with h2
            exact h2.symm
          rw [hval, alookup_dictInsert_ne _ _ _ _ (by decide),
            alookup_pyUpdate_not_bound p base "scidata_group"
              (alookup_none_forall p "scidata_group" hng)]
          have hbaseg : alookup base "scidata_group" = some sci_group := by
            rw [hbase]
            rfl
          rw [hbaseg, hgdef]
          by_cases hd : hasDigitStr k = true
          · rw [if_pos hd, sci_group_eq_amended k hd, amendedGroupKey, if_pos hd]
          · have hd2 := Bool.not_eq_true _ |>.mp hd
            rw [if_neg hd, amendedGroupKey, if_neg hd]

theorem cleanupAux_group :
    ∀ (m : List (String × FlatVal)) (acc out : List (String × List (String × String))),
      (∀ k p, (k, FlatVal.annStr p) ∈ m → alookup p "scidata_group" = none) →
      (∀ q ∈ acc, alookup q.2 "scidata_group" = some (amendedGroupKey q.1)) →
      cleanupAux m acc = some out →
      ∀ q ∈ out, alookup q.2 "scidata_group" = some (amendedGroupKey q.1) := by
  intro m
  induction m with
  | nil =>
      intro acc out _ hacc h
      rw [cleanupAux] at h
      injection h with h
      rw [← h]
      exact hacc
  | cons kv rest ih =>
      intro acc out hng hacc h
      obtain ⟨k, fv⟩ := kv
      cases fv with
      | plain v =>
          rw [cleanupAux] at h
          exact ih acc out (fun k2 p2 hm => hng k2 p2 (by simp [hm])) hacc h
      | annStr payload =>
          rw [cleanupAux] at h
          cases hentry : cleanup_entry k payload with
          | none => rw [hentry] at h; exact absurd h (by simp)
          | some val =>
              rw [hentry] at h
              refine ih (dictInsert acc k val) out
                (fun k2 p2 hm => hng k2 p2 (by simp [hm])) ?_ h
              intro q hq
              rcases dictInsert_mem_keyed acc k val q hq with h2 | h2
              · rw [h2]
                exact cleanup_entry_group k payload val
                  (hng k payload (by simp)) hentry
              · exact hacc q h2

/-- C5 (amended): for every flattened entry that `cleanup_flattened`
selects as an annotated leaf, the derived `scidata_group` is: when the
path key contains a trailing run of digits, the path with everything
**after** that run removed (the run itself is kept); otherwise the path
with its last `';'`-separated segment removed (the whole path when it has
a single segment).  The hypothesis excludes annotation payloads that
themselves bind `scidata_group` (the `val.update` of the source would
overwrite the derived value). -/
theorem cleanup_flattened_group_spec (m : List (String × FlatVal))
    (out : List (String × List (String × String)))
    (hng : ∀ k p, (k, FlatVal.annStr p) ∈ m → alookup p "scidata_group" = none)
    (h : cleanup_flattened m = some out) :
    ∀ q ∈ out, alookup q.2 "scidata_group" = some (amendedGroupKey q.1) :=
  cleanupAux_group m [] out hng (by simp) h

def c5m : List (String × FlatVal) :=
  [("a;0;b", FlatVal.annStr
    [("sdsection", "system"), ("sdsubsection", "m"), ("scidata_value", "v")])]

/-- C5 as stated is false: the key `a;0;b` has the trailing digit run `0`;
the claim demands groupKey `a;` (run and everything after it removed), but
`cleanup_flattened` keeps the run and produces `a;0`. -/
theorem cleanup_groupkey_keeps_run :
    (cleanup_flattened c5m).map
        (fun out => out.map (fun q => alookup q.2 "scidata_group")) =
      some [some "a;0"] ∧
      claimGroupKey "a;0;b" = "a;" ∧ ("a;0" : String) ≠ "a;" := by
  refine ⟨by decide, by decide, by decide⟩

def w5m : List (String × FlatVal) :=
  [("compounds;qsar;0;model", FlatVal.annStr
    [("sdsection", "methodology"), ("sdsubsection", "model"),
     ("scidata_value", "m1")])]

def w5out : List (String × List (String × String)) :=
  [("compounds;qsar;0;model",
    [("scidata_dir", "compounds;qsar;0;model"), ("scidata_key", "model"),
     ("scidata_group", "compounds;qsar;0"),
     ("scidata_group_alt", "compounds;qsar;0"),
     ("sdsection", "methodology"), ("sdsubsection", "model"),
     ("scidata_value", "m1"),
     ("scidata_group_link", "compounds;qsar;0/model")])]

theorem cleanup_flattened_group_spec_witness :
    (∀ k p, (k, FlatVal.annStr p) ∈ w5m → alookup p "scidata_group" = none) ∧
      cleanup_flattened w5m = some w5out ∧
      ∀ q ∈ w5out, alookup q.2 "scidata_group" = some (amendedGroupKey q.1) := by
  have hng : ∀ k p, (k, FlatVal.annStr p) ∈ w5m →
      alookup p "scidata_group" = none := by
    intro k p hm
    simp only [w5m, List.mem_singleton] at hm
    have hp := congrArg Prod.snd hm
    simp only at hp
    injection hp with hp
    rw [hp]
    rfl
  have hout : cleanup_flattened w5m = some w5out := by decide
  exact ⟨hng, hout, cleanup_flattened_group_spec w5m w5out hng hout⟩

/- ------------------------------------------------------------------ -/
/- `scidata_xwalker.py`: `group_link_override`.                        -/
/- ------------------------------------------------------------------ -/

/-- A compiled override pattern, modelled by the semantics of the two
`re` calls the source makes on it: `search v` is `re.search(pattern, v)`
succeeding, and `group2 v` is the value of `re.match(pattern, v).group(2)`
— `none` when that expression raises (the anchored match fails, the
pattern has no second group, or the group did not participate), which is
exactly what the source's `except` catches. -/
structure RePat where
  search : String → Bool
  group2 : String → Option String

/-- The replacement computed inside the `try`:
`replacement.replace('$!@%', re.match(pattern, link).group(2))`, falling
back to the literal replacement when the extraction raises. -/
def ruleOutput (p : RePat) (repl : String) (v : String) : String :=
  match p.group2 v with
  | some g => pyReplace repl "$!@%" g
  | none => repl

/-- One rule of the inner `for pattern, replacement in
group_overrides.items()` loop: overwrite the link when the pattern
matches, otherwise leave it. -/
def applyRule (v : String) (r : RePat × String) : String :=
  if r.1.search v then ruleOutput r.1 r.2 v else v

/-- The full pass over the override table for one leaf's
`scidata_group_link` (rules in table order, each tested against the
current, possibly already-rewritten value). -/
def group_link_override_value (rules : List (RePat × String)) (v : String) :
    String :=
  rules.foldl applyRule v

/-- An extracted leaf as `group_link_override` sees it: the
`scidata_group_link` field it rewrites, and the remaining fields it never
touches. -/
structure XLeaf where
  scidata_group_link : String
  rest : List (String × String)
  deriving DecidableEq

/-- `group_link_override(sci_input, group_overrides)` with the in-place
mutation made pure. -/
def group_link_override (m : List (String × XLeaf))
    (rules : List (RePat × String)) : List (String × XLeaf) :=
  m.map (fun kv =>
    (kv.1, { kv.2 with
      scidata_group_link :=
        group_link_override_value rules kv.2.scidata_group_link }))

/-- The leaf's link after the first `i` rules of the table. -/
def overrideInter (rules : List (RePat × String)) (v : String) (i : Nat) :
    String :=
  group_link_override_value (rules.take i) v

theorem overrideInter_zero (rules : List (RePat × String)) (v : String) :
    overrideInter rules v 0 = v := rfl

theorem overrideInter_succ (rules : List (RePat × String)) (v : String)
    (j : Nat) (hj : j < rules.length) :
    overrideInter rules v (j + 1) =
      applyRule (overrideInter rules v j) (rules.get ⟨j, hj⟩) := by
  rw [overrideInter, overrideInter, group_link_override_value,
    group_link_override_value, List.take_succ, List.getElem?_eq_getElem hj]
  rw [List.foldl_append]
  rfl

theorem overrideInter_length (rules : List (RePat × String)) (v : String) :
    overrideInter rules v rules.length = group_link_override_value rules v := by
  rw [overrideInter, List.take_length]

/-- C2 (amended): the rewriter applies, in table order, every rule whose
pattern matches the leaf's current (possibly already-rewritten) link,
overwriting unconditionally; the final link is the replacement produced by
the last rule that fires during the pass.  (A second application need not
reproduce the same links — see the idempotence counterexample.) -/
theorem group_link_override_last_fired (rules : List (RePat × String))
    (v : String) (i : Nat) (hi : i < rules.length)
    (hfire : (rules.get ⟨i, hi⟩).1.search (overrideInter rules v i) = true)
    (hafter : ∀ j, i < j → ∀ hj : j < rules.length,
      (rules.get ⟨j, hj⟩).1.search (overrideInter rules v j) = false) :
    group_link_override_value rules v =
      ruleOutput (rules.get ⟨i, hi⟩).1 (rules.get ⟨i, hi⟩).2
        (overrideInter rules v i) := by
  have hstable : ∀ j, i + 1 ≤ j → j ≤ rules.length →
      overrideInter rules v j =
        ruleOutput (rules.get ⟨i, hi⟩).1 (rules.get ⟨i, hi⟩).2
          (overrideInter rules v i) := by
    intro j
    induction j with
    | zero => intro h1 _; omega
    | succ j ihj =>
        intro h1 h2
        by_cases hij : i + 1 ≤ j
        · have hjlt : j < rules.length := by omega
          have hs := hafter j (by omega) hjlt
          rw [overrideInter_succ rules v j hjlt]
          simp only [applyRule, hs, Bool.false_eq_true, if_false]
          exact ihj hij (by omega)
        · have hji : j = i := by omega
          subst hji
          rw [overrideInter_succ rules v j hi]
          simp only [applyRule, hfire, if_true]
  rw [← overrideInter_length rules v]
  exact hstable rules.length (by omega) (by omega)

/-- Models the regex `''` (the empty pattern): `re.search` succeeds on
every string; `group(2)` raises `IndexError` (no second group). -/
def patAll : RePat := { search := fun _ => true, group2 := fun _ => none }

/-- Models the regex `b` (a literal, no groups): `re.search` succeeds iff
the string contains `'b'`; `group(2)` raises. -/
def patB : RePat := { search := fun s => s.data.contains 'b', group2 := fun _ => none }

def wRules : List (RePat × String) := [(patAll, "b"), (patB, "c")]

theorem group_link_override_last_fired_witness :
    1 < wRules.length ∧
      (wRules.get ⟨1, by decide⟩).1.search (overrideInter wRules "a" 1) = true ∧
      (∀ j, 1 < j → ∀ hj : j < wRules.length,
        (wRules.get ⟨j, hj⟩).1.search (overrideInter wRules "a" j) = false) ∧
      group_link_override_value wRules "a" =
        ruleOutput (wRules.get ⟨1, by decide⟩).1 (wRules.get ⟨1, by decide⟩).2
          (overrideInter wRules "a" 1) := by
  refine ⟨by decide, by decide, ?_, ?_⟩
  · intro j h1 hj
    exact absurd (show j < 2 by simpa [wRules] using hj) (by omega)
  · exact group_link_override_last_fired wRules "a" 1 (by decide) (by decide)
      (fun j h1 hj =>
        absurd (show j < 2 by simpa [wRules] using hj) (by omega))

/-- Models the regex `(x*)(\d+)`: `re.search` succeeds iff the string
contains a digit; the anchored `re.match` consumes leading `x`s and then
captures a digit run as group 2, raising (→ `none`) when no digit follows
the leading `x`s. -/
def cexPat : RePat :=
  { search := fun s => s.data.any Char.isDigit,
    group2 := fun s =>
      let ds := (s.data.dropWhile (fun c => c = 'x')).takeWhile Char.isDigit
      if ds.isEmpty then none else some (String.mk ds) }

def cexRules : List (RePat × String) := [(cexPat, "1$!@%")]

def cexLeafMap : List (String × XLeaf) := [("k", ⟨"5", []⟩)]

/-- C2 as stated is false: with the single override rule
`(x*)(\d+) → 1$!@%`, the leaf link `5` becomes `15` after one
application, but `115` after a second application — the rewriter is not
idempotent, because a replacement can itself match the pattern with a
different capture. -/
theorem group_link_override_not_idempotent :
    (group_link_override cexLeafMap cexRules).map
        (fun kv => kv.2.scidata_group_link) = ["15"] ∧
      (group_link_override (group_link_override cexLeafMap cexRules)
          cexRules).map (fun kv => kv.2.scidata_group_link) = ["115"] ∧
      (group_link_override (group_link_override cexLeafMap cexRules)
          cexRules).map (fun kv => kv.2.scidata_group_link) ≠
        (group_link_override cexLeafMap cexRules).map
          (fun kv => kv.2.scidata_group_link) := by
  refine ⟨by decide, by decide, by decide⟩

/-- C8: when a rule's pattern matches the leaf's current link but the
second-capture-group extraction fails (anchored match absent or no second
group — `group2 = none`), the rule overwrites the link with the literal
replacement template; the `except` clause makes this total, so no
exception escapes `group_link_override`. -/
theorem group_link_override_substitution_fallback
    (rules : List (RePat × String)) (v : String) (i : Nat)
    (hi : i < rules.length)
    (hsearch : (rules.get ⟨i, hi⟩).1.search (overrideInter rules v i) = true)
    (hfail : (rules.get ⟨i, hi⟩).1.group2 (overrideInter rules v i) = none) :
    overrideInter rules v (i + 1) = (rules.get ⟨i, hi⟩).2 := by
  rw [overrideInter_succ rules v i hi, applyRule, hsearch]
  simp only [if_true]
  rw [ruleOutput, hfail]

/-- Models the regex `(a)` (one group only): `re.search` succeeds iff the
string contains `'a'`; `group(2)` raises `IndexError`. -/
def patA1 : RePat := { search := fun s => s.data.contains 'a', group2 := fun _ => none }

def w8Rules : List (RePat × String) := [(patA1, "T")]

theorem group_link_override_substitution_fallback_witness :
    0 < w8Rules.length ∧
      (w8Rules.get ⟨0, by decide⟩).1.search (overrideInter w8Rules "a" 0) = true ∧
      (w8Rules.get ⟨0, by decide⟩).1.group2 (overrideInter w8Rules "a" 0) = none ∧
      overrideInter w8Rules "a" 1 = (w8Rules.get ⟨0, by decide⟩).2 :=
  ⟨by decide, by decide, by decide,
    group_link_override_substitution_fallback w8Rules "a" 0 (by decide)
      (by decide) (by decide)⟩

/- ------------------------------------------------------------------ -/
/- `scidata_xwalker.py`: `binner`.                                     -/
/- ------------------------------------------------------------------ -/

/-- An extracted leaf as `binner` reads it: the parsed annotation dict. -/
abbrev Leaf := List (String × String)

/-- The three fixed buckets `{'methodology': [], 'system': [], 'dataset': []}`. -/
structure Bins where
  methodology : List Leaf
  system : List Leaf
  dataset : List Leaf
  deriving DecidableEq

/-- One of the three fixed section names. -/
def validSection (s : String) : Bool :=
  (s == "methodology") || (s == "system") || (s == "dataset")

/-- The loop of `binner`: `bins[v['sdsection']].append(v)`.  `none` models
the `KeyError` raised when a leaf's `sdsection` is missing or is not one
of the three bucket names (`InvalidSectionError` in the specification's
taxonomy). -/
def binnerAux : List (String × Leaf) → Bins → Option Bins
  | [], b => some b
  | (_, v) :: rest, b =>
      match alookup v "sdsection" with
      | some s =>
          if s = "methodology" then
            binnerAux rest { b with methodology := b.methodology ++ [v] }
          else if s = "system" then
            binnerAux rest { b with system := b.system ++ [v] }
          else if s = "dataset" then
            binnerAux rest { b with dataset := b.dataset ++ [v] }
          else none
      | none => none

/-- `binner(sci_input)`. -/
def binner (m : List (String × Leaf)) : Option Bins :=
  binnerAux m ⟨[], [], []⟩

/-- The leaves of `m` carrying section `s`, in iteration order. -/
def sectionFilter (m : List (String × Leaf)) (s : String) : List Leaf :=
  (m.map Prod.snd).filter (fun v => alookup v "sdsection" == some s)

theorem binnerAux_ok :
    ∀ (m : List (String × Leaf)) (b : Bins),
      (∀ kv ∈ m, ∃ s, alookup kv.2 "sdsection" = some s ∧ validSection s = true) →
      binnerAux m b = some
        ⟨b.methodology ++ sectionFilter m "methodology",
         b.system ++ sectionFilter m "system",
         b.dataset ++ sectionFilter m "dataset"⟩ := by
  intro m
  induction m with
  | nil => intro b _; simp [binnerAux, sectionFilter]
  | cons kv rest ih =>
      intro b hall
      obtain ⟨k, v⟩ := kv
      obtain ⟨s, hs, hvalid⟩ := hall (k, v) (List.mem_cons_self _ _)
      have hrest := fun kv2 h => hall kv2 (List.mem_cons_of_mem _ h)
      rw [binnerAux, hs]
      have hc : ∀ t : String, (alookup v "sdsection" == some t) = (s == t) := by
        intro t
        rw [hs]
        cases hst : s == t with
        | true =>
            have : s = t := by simpa using hst
            simp [this]
        | false =>
            have : ¬ s = t := by simpa using hst
            simp [this]
      simp only [validSection, Bool.or_eq_true, beq_iff_eq] at hvalid
      rcases hvalid with (h | h) | h
      · subst h
        dsimp only
        rw [if_pos rfl, ih _ hrest]
        simp [sectionFilter, hc]
      · subst h
        dsimp only
        rw [if_neg (by decide), if_pos rfl, ih _ hrest]
        simp [sectionFilter, hc]
      · subst h
        dsimp only
        rw [if_neg (by decide), if_neg (by decide), if_pos rfl, ih _ hrest]
        simp [sectionFilter, hc]

theorem binnerAux_bad :
    ∀ (m : List (String × Leaf)) (b : Bins),
      (∃ kv ∈ m, ∃ s, alookup kv.2 "sdsection" = some s ∧ validSection s = false) →
      binnerAux m b = none := by
  intro m
  induction m with
  | nil => rintro b ⟨kv, hkv, -⟩; simp at hkv
  | cons kv0 rest ih =>
      rintro b ⟨kv, hkv, s, hs, hbad⟩
      obtain ⟨k, v⟩ := kv0
      rw [binnerAux]
      cases hlook : alookup v "sdsection" with
      | none => rfl
      | some t =>
          dsimp only
          rcases List.mem_cons.mp hkv with rfl | hmem
          · dsimp only at hs
            rw [hlook] at hs
            injection hs with hs
            subst hs
            have hb1 : ¬ t = "methodology" := by
              intro h2; rw [h2] at hbad; exact absurd hbad (by decide)
            have hb2 : ¬ t = "system" := by
              intro h2; rw [h2] at hbad; exact absurd hbad (by decide)
            have hb3 : ¬ t = "dataset" := by
              intro h2; rw [h2] at hbad; exact absurd hbad (by decide)
            rw [if_neg hb1, if_neg hb2, if_neg hb3]
          · by_cases h1 : t = "methodology"
            · rw [if_pos h1]; exact ih _ ⟨kv, hmem, s, hs, hbad⟩
            · rw [if_neg h1]
              by_cases h2 : t = "system"
              · rw [if_pos h2]; exact ih _ ⟨kv, hmem, s, hs, hbad⟩
              · rw [if_neg h2]
                by_cases h3 : t = "dataset"
                · rw [if_pos h3]; exact ih _ ⟨kv, hmem, s, hs, hbad⟩
                · rw [if_neg h3]

/-- C7: `binner` places every leaf whose `sdsection` is `methodology`,
`system` or `dataset` into the bucket of that name (in input order), and
fails — the `KeyError` the spec names `InvalidSectionError` — whenever
some leaf carries an `sdsection` outside the three fixed names. -/
theorem binner_partitions (m : List (String × Leaf)) :
    ((∀ kv ∈ m, ∃ s, alookup kv.2 "sdsection" = some s ∧ validSection s = true) →
      binner m = some
        ⟨sectionFilter m "methodology", sectionFilter m "system",
         sectionFilter m "dataset"⟩) ∧
    ((∃ kv ∈ m, ∃ s, alookup kv.2 "sdsection" = some s ∧ validSection s = false) →
      binner m = none) := by
  constructor
  · intro h
    rw [binner, binnerAux_ok m ⟨[], [], []⟩ h]
    simp
  · intro h
    rw [binner, binnerAux_bad m ⟨[], [], []⟩ h]

def w7ok : List (String × Leaf) :=
  [("k1", [("sdsection", "system"), ("scidata_value", "a")]),
   ("k2", [("sdsection", "dataset"), ("scidata_value", "b")]),
   ("k3", [("sdsection", "methodology"), ("scidata_value", "c")])]

def w7bad : List (String × Leaf) :=
  [("k1", [("sdsection", "system"), ("scidata_value", "a")]),
   ("k2", [("sdsection", "results"), ("scidata_value", "b")])]

theorem binner_partitions_witness :
    (∀ kv ∈ w7ok, ∃ s, alookup kv.2 "sdsection" = some s ∧ validSection s = true) ∧
      binner w7ok = some
        ⟨sectionFilter w7ok "methodology", sectionFilter w7ok "system",
         sectionFilter w7ok "dataset"⟩ ∧
      (∃ kv ∈ w7bad, ∃ s, alookup kv.2 "sdsection" = some s ∧
        validSection s = false) ∧
      binner w7bad = none := by
  have hok : ∀ kv ∈ w7ok, ∃ s, alookup kv.2 "sdsection" = some s ∧
      validSection s = true := by
    intro kv hkv
    simp only [w7ok, List.mem_cons, List.not_mem_nil, or_false] at hkv
    rcases hkv with rfl | rfl | rfl
    · exact ⟨"system", by decide, by decide⟩
    · exact ⟨"dataset", by decide, by decide⟩
    · exact ⟨"methodology", by decide, by decide⟩
  have hbad : ∃ kv ∈ w7bad, ∃ s, alookup kv.2 "sdsection" = some s ∧
      validSection s = false :=
    ⟨("k2", [("sdsection", "results"), ("scidata_value", "b")]), by decide,
      "results", by decide, by decide⟩
  exact ⟨hok, (binner_partitions w7ok).1 hok, hbad, (binner_partitions w7bad).2 hbad⟩

/- ------------------------------------------------------------------ -/
/- `scidata.py`: `SciData.datagroup`.                                  -/
/- ------------------------------------------------------------------ -/

/-- A datapoint record as `datagroup` sees it: a dict of string fields
(`'@id'` plus the relation keys attached by `scilinker`). -/
abbrev DRec := List (String × String)

/-- One emitted `datagroup` node:
`{'@id': ..., '@type': 'sdo:datagroup', groupk: groupvr, 'datapoints': [...]}`. -/
structure Datagroup where
  atId : String
  atType : String
  key : String
  value : String
  datapoints : List String
  deriving DecidableEq

/-- The inner `for sci_bin in inp` sweep of one loop iteration: collect
the `'@id'` of every record whose field `groupk` equals `groupvr`, and pop
`groupk` from **every** record in which it is truthy — matched or not
(the `pop` sits under `if y:` but outside the equality test).  A record
lacking `'@id'` would raise `KeyError` in the source; the inputs of
interest always carry it (modelled with an empty-string default). -/
def dgSweep (groupk groupvr : String) : List DRec → List DRec × List String
  | [] => ([], [])
  | rec :: rest =>
      let (rest2, ids) := dgSweep groupk groupvr rest
      match alookup rec groupk with
      | some y =>
          if y ≠ "" then
            (eraseKey rec groupk :: rest2,
              if y = groupvr then ((alookup rec "@id").getD "") :: ids else ids)
          else (rec :: rest2, ids)
      | none => (rec :: rest2, ids)

/-- The `while groupcount:` loop of `datagroup`, with fuel.  `groupcount`
is `some c` while truthy and `none` once the source assigns `False`; note
that the source never increments it — every iteration substitutes the
same `str(groupcount)` (`"1"`) into the value template.  The translation
preserves that faithfully. -/
def dgLoop :
    Nat → Option Nat → String → String → List DRec → List Datagroup → Nat →
      List DRec × List Datagroup × Nat
  | 0, _, _, _, recs, dgs, num => (recs, dgs, num)
  | _ + 1, none, _, _, recs, dgs, num => (recs, dgs, num)
  | fuel + 1, some c, groupk, groupv, recs, dgs, num =>
      let groupvr := pyReplace groupv "$!@%" (natToStr c)
      let swept := dgSweep groupk groupvr recs
      if swept.2 ≠ [] then
        dgLoop fuel (some c) groupk groupv swept.1
          (dgs ++ [⟨"datagroup/" ++ natToStr num ++ "/", "sdo:datagroup",
            groupk, groupvr, swept.2⟩])
          (num + 1)
      else dgLoop fuel none groupk groupv swept.1 dgs num

/-- `SciData.datagroup(sci_groups)` restricted to its algorithmic core:
the datapoint list is threaded through the per-rule loops (mutations
persist across rules) and the emitted `datagroup` nodes are accumulated
with a running `group_num`.  The `if inp:` guard skips everything when the
datapoint list is falsy (empty). -/
def datagroup (rules : List (String × String)) (recs : List DRec) :
    List DRec × List Datagroup :=
  if recs.isEmpty then (recs, [])
  else
    let final := rules.foldl
      (fun st rule =>
        let r := dgLoop (st.1.length + 2) (some 1) rule.1 rule.2 st.1 st.2.1 st.2.2
        (r.1, r.2.1, r.2.2))
      (recs, [], 1)
    (final.1, final.2.1)

def dgRecs : List DRec :=
  [[("@id", "datapoint/1/"), ("crystal", "crystal/1/")],
   [("@id", "datapoint/2/"), ("crystal", "crystal/2/")]]

def dgRules : List (String × String) := [("crystal", "crystal/$!@%/")]

/-- C4 failing input, evaluated: with datapoints linked to `crystal/1/`
and `crystal/2/` and the rule `crystal → crystal/$!@%/`, the source emits
only the index-1 group (holding `datapoint/1/`) and strips the `crystal`
field from **both** records, so index 2 is never tried even though a
record bearing its instantiated value existed.  The claim (and §4.12 of
the spec) instead requires a second group for index 2. -/
theorem datagroup_never_advances :
    (datagroup dgRules dgRecs).2 =
      [⟨"datagroup/1/", "sdo:datagroup", "crystal", "crystal/1/",
        ["datapoint/1/"]⟩] ∧
      (datagroup dgRules dgRecs).1 =
        [[("@id", "datapoint/1/")], [("@id", "datapoint/2/")]] := by
  refine ⟨by decide, by decide⟩

/-- Supporting fact for C4: whatever the fuel and state, every group node
the loop emits beyond those already accumulated carries the value template
instantiated with the **initial** counter — the source never increments
`groupcount`, so with `c = 1` no index other than 1 is ever substituted. -/
theorem dgLoop_value_never_advances :
    ∀ (fuel : Nat) (c : Nat) (groupk groupv : String) (recs : List DRec)
      (dgs : List Datagroup) (num : Nat),
      ∀ d ∈ (dgLoop fuel (some c) groupk groupv recs dgs num).2.1,
        d ∈ dgs ∨ d.value = pyReplace groupv "$!@%" (natToStr c) := by
  intro fuel
  induction fuel with
  | zero => intro c groupk groupv recs dgs num d hd; exact Or.inl hd
  | succ fuel ih =>
      intro c groupk groupv recs dgs num d hd
      rw [dgLoop] at hd
      by_cases hne : (dgSweep groupk (pyReplace groupv "$!@%" (natToStr c)) recs).2 ≠ []
      · rw [if_pos hne] at hd
        rcases ih c groupk groupv _ _ _ d hd with h | h
        · rcases List.mem_append.mp h with h2 | h2
          · exact Or.inl h2
          · right
            have : d = ⟨"datagroup/" ++ natToStr num ++ "/", "sdo:datagroup",
                groupk, pyReplace groupv "$!@%" (natToStr c),
                (dgSweep groupk (pyReplace groupv "$!@%" (natToStr c)) recs).2⟩ := by
              simpa using h2
            rw [this]
        · exact Or.inr h
      · rw [if_neg hne] at hd
        cases fuel with
        | zero => exact Or.inl hd
        | succ fuel2 => exact Or.inl hd

end SciDataXW
